import Mathlib

/-!
A shallow embedding of the djson repository (github.com/moikot/djson): a small
parser that merges textual expressions such as `a.b[0]=val` into a nested
map/array tree held as `map[string]interface{}`.

The repository's source files contain two revisions of the lexer/parser pair
that share one tree-mutating builder:

* the `MergeValue`/`MergeString` revision (src/parser.go together with the
  lexer revision that defines the `lexer` interface and the
  `unknown escape sequence` error): a single-clause grammar whose right-hand
  value is the verbatim remainder of the input; embedded below as `mergeValue`
  and `mergeString` with the lexer in namespace `MergeLex`;
* the `Unmarshal` revision (the parser of src/unnamed/part_002 with the lexer
  of src/unnamed/part_004): the full grammar with comma-separated clauses,
  single-quoted strings, `@`-verbatim values and braced value lists; embedded
  below as `unmarshal` with the lexer in namespace `FullLex`.

Conventions of the embedding:

* Go's `map[string]interface{}` is an association list `GoMap`; Go mutates the
  maps in place, the embedding passes the updated state explicitly.  The
  builder's commit chain re-stores every container on its way to the root, so
  the explicit state passing reproduces the in-place result.
* `float64` values are abstracted by their accepted literal text (constructor
  `Value.VFloat`); which texts Go's `strconv.ParseFloat` accepts is modelled
  exactly, the IEEE bit pattern (which no claim mentions) is not.
* Byte positions inside tokens and lexer error messages are not modelled; an
  error message keeps its text without the position prefix.
* The token channel fed by the lexer goroutine is replaced by the finite list
  of tokens the lexer emits before it stops; `drain` has no pure content.
* `unicode.IsNumber` (used for array-index characters) is modelled as
  `Char.isDigit`; only ASCII indices appear in the claims.
* Go code that would panic (a negative array index reaching `a[index]`) is
  unreachable from the parsers, whose index tokens are digit strings; the
  embedding totalises those spots with `Int.toNat`.
-/

namespace Djson

/-- Go's `interface{}` as it is stored in the destination tree: `nil`, `bool`,
`int64`, `float64` (abstracted by its literal), `string`, `[]interface{}` or
`map[string]interface{}`. -/
inductive Value where
  | VNull : Value
  | VBool : Bool → Value
  | VInt : Int → Value
  | VFloat : String → Value
  | VStr : String → Value
  | VArr : List Value → Value
  | VMap : List (String × Value) → Value

/-- A Go `map[string]interface{}`, embedded as an association list without
duplicate keys (``setKey`` replaces in place). Iteration order is never
observed by the source. -/
abbrev GoMap := List (String × Value)

/-- Map read `v, ok := m[key]`. -/
def lookup : GoMap → String → Option Value
  | [], _ => none
  | (k, v) :: rest, key => if k = key then some v else lookup rest key

/-- Map write `m[key] = v`. -/
def setKey : GoMap → String → Value → GoMap
  | [], key, v => [(key, v)]
  | (k, w) :: rest, key, v =>
    if k = key then (k, v) :: rest else (k, w) :: setKey rest key v

namespace Strconv

/-- Go `strconv.ParseBool`: the twelve accepted spellings. -/
def parseBool (str : String) : Option Bool :=
  if str = "1" ∨ str = "t" ∨ str = "T" ∨ str = "true" ∨ str = "TRUE" ∨ str = "True" then
    some true
  else if str = "0" ∨ str = "f" ∨ str = "F" ∨ str = "false" ∨ str = "FALSE" ∨ str = "False" then
    some false
  else
    none

/-- Go `strconv.NumError` reasons. -/
inductive NumError where
  | syntaxError : NumError
  | rangeError : NumError
deriving DecidableEq

def digitVal (c : Char) : Nat := c.toNat - 48

def allDigits (l : List Char) : Bool := l.all Char.isDigit

def digitsToNat (l : List Char) : Nat := l.foldl (fun a c => a * 10 + digitVal c) 0

/-- Go `strconv.ParseInt(s, 10, 64)`: an optional sign, then one or more ASCII
decimal digits (no underscores, since the base is given explicitly), an error
when the value falls outside the signed 64-bit range. -/
def parseInt64 (s : String) : Except NumError Int :=
  match s.toList with
  | [] => Except.error NumError.syntaxError
  | c :: cs =>
    let neg : Bool := c = '-'
    let ds : List Char := if c = '-' ∨ c = '+' then cs else c :: cs
    if ds ≠ [] ∧ allDigits ds then
      let n := digitsToNat ds
      if neg then
        if n ≤ 2 ^ 63 then Except.ok (-(n : Int)) else Except.error NumError.rangeError
      else
        if n ≤ 2 ^ 63 - 1 then Except.ok (n : Int) else Except.error NumError.rangeError
    else
      Except.error NumError.syntaxError

/-- Go strconv's `lower`: set the 0x20 bit (folds ASCII letters). -/
def lower (c : Char) : Char := Char.ofNat (c.toNat ||| 32)

def isHexLetter (c : Char) : Bool := 97 ≤ (lower c).toNat && (lower c).toNat ≤ 102

/-- The mantissa loop of strconv's `readFloat`: digits (hex digits when `hex`),
underscores and at most one dot; returns (sawdigits, underscores, rest), where
rest starts at the first character the loop broke on. -/
def mantLoop (hex : Bool) : List Char → Bool → Bool → Bool → Bool × Bool × List Char
  | [], _, sawdigits, underscores => (sawdigits, underscores, [])
  | c :: cs, sawdot, sawdigits, underscores =>
    if c = '_' then mantLoop hex cs sawdot sawdigits true
    else if c = '.' then
      if sawdot then (sawdigits, underscores, c :: cs)
      else mantLoop hex cs true sawdigits underscores
    else if c.isDigit || (hex && isHexLetter c) then mantLoop hex cs sawdot true underscores
    else (sawdigits, underscores, c :: cs)

/-- The exponent-digit loop of `readFloat`: decimal digits and underscores. -/
def expDigits : List Char → Bool → Bool × List Char
  | [], u => (u, [])
  | c :: cs, u =>
    if c.isDigit then expDigits cs u
    else if c = '_' then expDigits cs true
    else (u, c :: cs)

/-- The exponent of `readFloat` after the exponent character: an optional sign,
a mandatory first digit, then digits and underscores; accepted only when it
consumes the rest of the string. Returns (accepted, underscores-seen). -/
def expAccepts (l : List Char) : Bool × Bool :=
  let l1 := match l with
    | '+' :: r => r
    | '-' :: r => r
    | r => r
  match l1 with
  | c :: _ =>
    if c.isDigit then
      let (u, r) := expDigits l1 false
      (decide (r = []), u)
    else (false, false)
  | [] => (false, false)

/-- The scanning loop of Go strconv's `underscoreOK`; `saw` is the class of the
previous character (the caret for the start, `0` for a digit or base prefix,
an underscore, or the bang for anything else). -/
def uOKLoop (hex : Bool) : List Char → Char → Bool
  | [], saw => saw ≠ '_'
  | c :: cs, saw =>
    if c.isDigit || (hex && isHexLetter c) then uOKLoop hex cs '0'
    else if c = '_' then
      if saw = '0' then uOKLoop hex cs '_' else false
    else if saw = '_' then false
    else uOKLoop hex cs '!'

/-- Go strconv's `underscoreOK`: underscores must separate successive digits
(or follow a base prefix). -/
def underscoreOK (s : List Char) : Bool :=
  let t := match s with
    | c :: r => if c = '-' ∨ c = '+' then r else s
    | [] => s
  match t with
  | '0' :: b :: rest =>
    if lower b = 'b' ∨ lower b = 'o' ∨ lower b = 'x' then uOKLoop (lower b = 'x') rest '0'
    else uOKLoop false t '^'
  | _ => uOKLoop false t '^'

/-- Acceptance of a decimal mantissa (with optional exponent) covering the whole
string; `whole` is the full input for the `underscoreOK` check. -/
def decTail (whole s1 : List Char) : Bool :=
  let (sawdigits, us, rest) := mantLoop false s1 false false false
  if !sawdigits then false
  else
    match rest with
    | [] => !us || underscoreOK whole
    | e :: r2 =>
      if lower e = 'e' then
        let (ok, us2) := expAccepts r2
        ok && (!(us || us2) || underscoreOK whole)
      else false

/-- Acceptance of a hexadecimal mantissa after the `0x` prefix: the binary
exponent introduced by `p` is mandatory. -/
def hexTail (whole after0x : List Char) : Bool :=
  let (sawdigits, us, rest) := mantLoop true after0x false false false
  if !sawdigits then false
  else
    match rest with
    | p :: r2 =>
      if lower p = 'p' then
        let (ok, us2) := expAccepts r2
        ok && (!(us || us2) || underscoreOK whole)
      else false
    | [] => false

/-- Syntactic acceptance of Go strconv's `readFloat`, restricted to inputs it
consumes completely (`ParseFloat` rejects a partial parse). -/
def readFloatAccepts (s : List Char) : Bool :=
  let s1 := match s with
    | '+' :: r => r
    | '-' :: r => r
    | r => r
  match s1 with
  | '0' :: x :: c :: rest =>
    if lower x = 'x' then hexTail s (c :: rest) else decTail s s1
  | _ => decTail s s1

/-- Case-insensitive match of the input against an all-lowercase pattern
(Go strconv's `commonPrefixLenIgnoreCase`, specialised to a full match). -/
def equalFold (s t : List Char) : Bool :=
  match s, t with
  | [], [] => true
  | a :: as, b :: bs => lower a = b && equalFold as bs
  | _, _ => false

/-- Go strconv's `special`: `inf` and `infinity` (optionally signed) and `nan`
(unsigned), ASCII case-insensitive, restricted to a full match. -/
def specialAccepts (s : List Char) : Bool :=
  match s with
  | '+' :: r => equalFold r ['i', 'n', 'f'] || equalFold r ['i', 'n', 'f', 'i', 'n', 'i', 't', 'y']
  | '-' :: r => equalFold r ['i', 'n', 'f'] || equalFold r ['i', 'n', 'f', 'i', 'n', 'i', 't', 'y']
  | r =>
    equalFold r ['i', 'n', 'f'] || equalFold r ['i', 'n', 'f', 'i', 'n', 'i', 't', 'y'] ||
      equalFold r ['n', 'a', 'n']

/-- Which strings Go `strconv.ParseFloat(s, 64)` accepts. -/
def floatAccepts (s : String) : Bool :=
  specialAccepts s.toList || readFloatAccepts s.toList

/-- Go `strconv.Atoi` (64-bit int), with its error strings. -/
def atoi (s : String) : Except String Int :=
  match parseInt64 s with
  | Except.ok i => Except.ok i
  | Except.error NumError.syntaxError =>
    Except.error ("strconv.Atoi: parsing " ++ "\"" ++ s ++ "\"" ++ ": invalid syntax")
  | Except.error NumError.rangeError =>
    Except.error ("strconv.Atoi: parsing " ++ "\"" ++ s ++ "\"" ++ ": value out of range")

end Strconv

/-- src/parser.go `tryParse` (identical in src/unnamed/part_002): boolean,
then 64-bit integer, then 64-bit float, then the three null spellings, else
the literal string. -/
def tryParse (val : String) : Value :=
  match Strconv.parseBool val with
  | some b => Value.VBool b
  | none =>
    match Strconv.parseInt64 val with
    | Except.ok i => Value.VInt i
    | Except.error _ =>
      if Strconv.floatAccepts val then Value.VFloat val
      else if val = "null" ∨ val = "NULL" ∨ val = "Null" then Value.VNull
      else Value.VStr val

/-- src/builder.go `arrayBuilder.set`, the array part: grow the array with
null entries until it holds `index + 1` elements, then write at `index`.
(The parsers only produce non-negative indices; see the header note.) -/
def arraySet (a : List Value) (index : Int) (v : Value) : List Value :=
  let a2 :=
    if (a.length : Int) < index + 1 then
      a ++ List.replicate (index + 1 - (a.length : Int)).toNat Value.VNull
    else a
  a2.set index.toNat v

/-- The builder chain of src/builder.go: `rootBuilder`, `mapBuilder`
(owning map `m`, slot `key`) and `arrayBuilder` (owning array `a`, slot
`index`), each holding its parent for commit propagation. -/
inductive Cursor where
  | root : GoMap → Cursor
  | mapB : Cursor → GoMap → String → Cursor
  | arrB : Cursor → List Value → Int → Cursor

/-- `newMapBuilder` of src/builder.go: reuse the slot's existing container
when it already holds a map, otherwise start from a fresh empty map.  The
root case is `rootBuilder.newMapBuilder`, handing the destination map itself
to the child. -/
def Cursor.newMapBuilder : Cursor → String → Cursor
  | Cursor.root m, key => Cursor.mapB (Cursor.root m) m key
  | Cursor.mapB p m key, k2 =>
    match lookup m key with
    | some (Value.VMap mm) => Cursor.mapB (Cursor.mapB p m key) mm k2
    | _ => Cursor.mapB (Cursor.mapB p m key) [] k2
  | Cursor.arrB p a idx, k2 =>
    if (a.length : Int) ≥ idx + 1 then
      match a[idx.toNat]? with
      | some (Value.VMap mm) => Cursor.mapB (Cursor.arrB p a idx) mm k2
      | _ => Cursor.mapB (Cursor.arrB p a idx) [] k2
    else Cursor.mapB (Cursor.arrB p a idx) [] k2

/-- `newArrayBuilder` of src/builder.go: reuse the slot's existing container
when it already holds an array, otherwise start from a fresh empty array.
`rootBuilder` has no `newArrayBuilder` (the parsers request only map
children of the root); the root case here is never reached. -/
def Cursor.newArrayBuilder : Cursor → Int → Cursor
  | Cursor.root m, idx => Cursor.arrB (Cursor.root m) [] idx
  | Cursor.mapB p m key, idx =>
    match lookup m key with
    | some (Value.VArr aa) => Cursor.arrB (Cursor.mapB p m key) aa idx
    | _ => Cursor.arrB (Cursor.mapB p m key) [] idx
  | Cursor.arrB p a i, idx =>
    if (a.length : Int) ≥ i + 1 then
      match a[i.toNat]? with
      | some (Value.VArr aa) => Cursor.arrB (Cursor.arrB p a i) aa idx
      | _ => Cursor.arrB (Cursor.arrB p a i) [] idx
    else Cursor.arrB (Cursor.arrB p a i) [] idx

/-- `set` of src/builder.go: write the value into the owning container's
slot and propagate the container to the parent.  `rootBuilder.set` is a
no-op in Go because its child's owning map aliases the caller's map; in the
explicit-state embedding the root therefore adopts the propagated map,
which is always that same (updated) map. -/
def Cursor.set : Cursor → Value → GoMap
  | Cursor.root m, v =>
    match v with
    | Value.VMap m2 => m2
    | _ => m
  | Cursor.mapB p m key, v => Cursor.set p (Value.VMap (setKey m key v))
  | Cursor.arrB p a idx, v => Cursor.set p (Value.VArr (arraySet a idx v))

/-- The token kinds of both lexer revisions (`tokenType` plus the token's
text; byte positions are not modelled). -/
inductive Token where
  | tEnd : Token
  | tError : String → Token
  | tMapKey : String → Token
  | tMapKeySeparator : Token
  | tArrayIndexStart : Token
  | tArrayIndexFinish : Token
  | tArrayIndex : String → Token
  | tAssignment : Token
  | tValue : String → Token
  | tString : String → Token
  | tVerbatimString : String → Token
  | tNextKey : Token
  | tValueArrayStart : Token
  | tValueArrayFinish : Token
  | tNextValue : Token
deriving DecidableEq

/-- The `value` field of a token as the lexers emit it (the buffer the token
was cut from; fixed punctuation for the single-character tokens). -/
def Token.text : Token → String
  | Token.tEnd => ""
  | Token.tError msg => msg
  | Token.tMapKey s => s
  | Token.tMapKeySeparator => "."
  | Token.tArrayIndexStart => "["
  | Token.tArrayIndexFinish => "]"
  | Token.tArrayIndex s => s
  | Token.tAssignment => "="
  | Token.tValue s => s
  | Token.tString s => s
  | Token.tVerbatimString s => s
  | Token.tNextKey => ","
  | Token.tValueArrayStart => "\x7b"
  | Token.tValueArrayFinish => "\x7d"
  | Token.tNextValue => ","

/-- src/parser.go `tokenToError`: an error token carries its message, any
other unexpected token is quoted. -/
def tokenToError (tok : Token) : String :=
  match tok with
  | Token.tError msg => msg
  | _ => "unexpected " ++ "\"" ++ tok.text ++ "\""

/-- In Go, reading the token channel after the lexer goroutine has closed it
yields the zero token, whose type is `tokenEnd` (0) and whose value is the
empty string.  The embedding's parsers treat an exhausted token list the
same way: the readers return the empty-value result of the end token, and
every other consumer falls into its default branch, producing
`tokenToError` of the zero token, the string below. -/
def streamEnded : String := "unexpected " ++ "\"\""

/-- src/parser.go `readRightValue` (the `MergeValue` reader): end of input
is the empty string, a value token is coerced with `tryParse`. -/
def readRightValue : List Token → Except String (Value × List Token)
  | Token.tEnd :: ts => Except.ok (Value.VStr "", ts)
  | Token.tValue v :: ts => Except.ok (tryParse v, ts)
  | t :: _ => Except.error (tokenToError t)
  | [] => Except.ok (Value.VStr "", [])

/-- src/parser.go `readRightString` (the `MergeString` reader): like
`readRightValue` but the token text is kept as a literal string. -/
def readRightString : List Token → Except String (Value × List Token)
  | Token.tEnd :: ts => Except.ok (Value.VStr "", ts)
  | Token.tValue v :: ts => Except.ok (Value.VStr v, ts)
  | t :: _ => Except.error (tokenToError t)
  | [] => Except.ok (Value.VStr "", [])

/-- Go `strings.Trim(s, "'")`: drop every leading and trailing single
quote. -/
def trimQuotes (s : String) : String :=
  String.mk (((s.toList.dropWhile (fun c => c = '\'')).reverse.dropWhile
    (fun c => c = '\'')).reverse)

/-- `readValuesArray` of src/unnamed/part_002: collect a braced value list.
`valueDefined` tracks whether the current element has produced a value; a
separator with no value appends Go `nil`.  Strings are trimmed of quotes,
plain values are coerced. -/
def readValuesArray : List Token → Bool → List Value →
    Except String (List Value × List Token)
  | Token.tValue v :: ts, _, arr => readValuesArray ts true (arr ++ [tryParse v])
  | Token.tString sv :: ts, _, arr =>
    readValuesArray ts true (arr ++ [Value.VStr (trimQuotes sv)])
  | Token.tNextValue :: ts, valueDefined, arr =>
    readValuesArray ts false (if valueDefined then arr else arr ++ [Value.VNull])
  | Token.tValueArrayFinish :: ts, _, arr => Except.ok (arr, ts)
  | t :: _, _, _ => Except.error (tokenToError t)
  | [], _, _ => Except.error streamEnded

/-- `readRightValue` of src/unnamed/part_002 (the `Unmarshal` reader):
additionally accepts quoted strings, verbatim strings and braced value
lists. -/
def readRightValueU : List Token → Except String (Value × List Token)
  | Token.tEnd :: ts => Except.ok (Value.VStr "", ts)
  | Token.tValue v :: ts => Except.ok (tryParse v, ts)
  | Token.tString sv :: ts => Except.ok (Value.VStr (trimQuotes sv), ts)
  | Token.tVerbatimString sv :: ts => Except.ok (Value.VStr sv, ts)
  | Token.tValueArrayStart :: ts =>
    match readValuesArray ts false [] with
    | Except.ok (arr, ts2) => Except.ok (Value.VArr arr, ts2)
    | Except.error e => Except.error e
  | t :: _ => Except.error (tokenToError t)
  | [] => Except.ok (Value.VStr "", [])

mutual

/-- `parser.readMap` (identical in src/parser.go and src/unnamed/part_002):
expect a map-key token and descend into the key's slot. -/
def readMap (reader : List Token → Except String (Value × List Token))
    (b : Cursor) : List Token → Except String (GoMap × List Token)
  | Token.tMapKey k :: ts => readLeftValue reader (b.newMapBuilder k) ts
  | t :: _ => Except.error (tokenToError t)
  | [] => Except.error streamEnded

/-- `parser.readLeftValue`: continue the path with a further key or index,
or consume the assignment and commit the right-hand value. -/
def readLeftValue (reader : List Token → Except String (Value × List Token))
    (b : Cursor) : List Token → Except String (GoMap × List Token)
  | Token.tMapKeySeparator :: ts => readMap reader b ts
  | Token.tArrayIndexStart :: ts => readArray reader b ts
  | Token.tAssignment :: ts =>
    match reader ts with
    | Except.ok (v, ts2) => Except.ok (b.set v, ts2)
    | Except.error e => Except.error e
  | t :: _ => Except.error (tokenToError t)
  | [] => Except.error streamEnded

/-- `parser.readArray`: expect an index token, convert it with
`strconv.Atoi` (a conversion error aborts), expect the closing bracket and
descend into the index's slot. -/
def readArray (reader : List Token → Except String (Value × List Token))
    (b : Cursor) : List Token → Except String (GoMap × List Token)
  | Token.tArrayIndex d :: ts =>
    match Strconv.atoi d with
    | Except.error e => Except.error e
    | Except.ok i =>
      match ts with
      | Token.tArrayIndexFinish :: ts2 => readLeftValue reader (b.newArrayBuilder i) ts2
      | t :: _ => Except.error (tokenToError t)
      | [] => Except.error streamEnded
  | t :: _ => Except.error (tokenToError t)
  | [] => Except.error streamEnded

end

def hexDigit (n : Nat) : Char :=
  if n < 10 then Char.ofNat (48 + n) else Char.ofNat (55 + n)

/-- Uppercase hexadecimal digits of a natural number, most significant
first (empty for zero; `strRuneStr` pads). -/
def hexRep : Nat → List Char
  | 0 => []
  | n + 1 => hexRep ((n + 1) / 16) ++ [hexDigit ((n + 1) % 16)]
decreasing_by exact Nat.div_lt_self (Nat.succ_pos n) (by norm_num)

/-- The `%v` rendering of the lexers' `strRune` type: `end` for the end
marker, otherwise Go's `%#U` verb (`U+` then at least four uppercase hex
digits, then the glyph in single quotes). -/
def strRuneStr : Option Char → String
  | none => "end"
  | some c =>
    let h := hexRep c.toNat
    "character: U+" ++ String.mk (List.replicate (4 - h.length) '0' ++ h) ++
      " '" ++ String.mk [c] ++ "'"

/-- The `unexpected %v, expecting …` error text shared by both lexers. -/
def unexpectedErr (r : Option Char) (expecting : String) : String :=
  "unexpected " ++ strRuneStr r ++ ", expecting " ++ expecting

namespace MergeLex

/-- `stopLeftValueChars` of the MergeValue-revision lexer: `=`, `.` and `[`.
The closing bracket `]` is NOT a stop character in this revision. -/
def stopLeftValueChars : List Char := ['=', '.', '[']

/-- `isStopChar`: membership in the stop set. -/
def isStopChar (c : Char) (stops : List Char) : Bool := c ∈ stops

/-- `lex.scan` of the MergeValue-revision lexer: collect characters up to
the first unescaped stop character or the end.  A backslash followed by a
stop character or another backslash contributes that single character; a
backslash followed by anything else aborts with the
`unknown escape sequence` error. -/
def scan (stops : List Char) : List Char → Except String (List Char × List Char)
  | [] => Except.ok ([], [])
  | c :: cs =>
    if c = '\\' then
      match cs with
      | [] => Except.error ("unknown escape sequence: " ++ strRuneStr none)
      | d :: ds =>
        if isStopChar d stops || d = '\\' then
          match scan stops ds with
          | Except.ok (t, r) => Except.ok (d :: t, r)
          | Except.error e => Except.error e
        else Except.error ("unknown escape sequence: " ++ strRuneStr (some d))
    else if isStopChar c stops then Except.ok ([], c :: cs)
    else
      match scan stops cs with
      | Except.ok (t, r) => Except.ok (c :: t, r)
      | Except.error e => Except.error e

/-- Scanning never grows the remainder (termination helper). -/
theorem scan_rest_le (stops : List Char) :
    ∀ s t r, scan stops s = Except.ok (t, r) → r.length ≤ s.length := by
  intro s
  induction s using scan.induct stops with
  | case1 => intro t r h; simp only [scan] at h; cases h; simp
  | case2 => intro t r h; simp [scan] at h
  | case3 d ds hd t0 r0 hscan ih =>
    intro t r h
    simp only [scan, hd, if_true, hscan] at h
    cases h
    have := ih t0 r0 hscan
    simp
    omega
  | case4 d ds hd e hscan ih =>
    intro t r h
    simp only [scan, hd, if_true, hscan] at h
    simp at h
  | case5 d ds hd =>
    intro t r h
    rw [scan.eq_def] at h
    dsimp only at h
    rw [if_pos rfl, if_neg (by exact fun hh => hd hh)] at h
    exact absurd h (by simp)
  | case6 d ds hb hstop =>
    intro t r h
    rw [scan.eq_def] at h
    dsimp only at h
    rw [if_neg hb, if_pos hstop] at h
    cases h
    simp
  | case7 d ds hb hstop t0 r0 hscan ih =>
    intro t r h
    rw [scan.eq_def] at h
    dsimp only at h
    rw [if_neg hb, if_neg hstop, hscan] at h
    cases h
    have := ih t0 r0 hscan
    simp
    omega
  | case8 d ds hb hstop e hscan ih =>
    intro t r h
    rw [scan.eq_def] at h
    dsimp only at h
    rw [if_neg hb, if_neg hstop, hscan] at h
    exact absurd h (by simp)

/-- A scan that starts before a non-stop character consumes at least that
character (termination helper). -/
theorem scan_cons_lt (stops : List Char) (c : Char) (cs t r : List Char)
    (hc : isStopChar c stops = false)
    (h : scan stops (c :: cs) = Except.ok (t, r)) : r.length < (c :: cs).length := by
  by_cases hb : c = '\\'
  · subst hb
    cases cs with
    | nil => simp [scan] at h
    | cons d ds =>
      rw [scan.eq_def] at h
      dsimp only at h
      rw [if_pos rfl] at h
      by_cases hd : (isStopChar d stops || decide (d = '\\')) = true
      · rw [if_pos hd] at h
        cases hscan : scan stops ds with
        | ok pr =>
          obtain ⟨t0, r0⟩ := pr
          rw [hscan] at h
          have hle := scan_rest_le stops ds t0 r0 hscan
          cases h
          simp
          omega
        | error e => rw [hscan] at h; exact absurd h (by simp)
      · rw [if_neg hd] at h
        exact absurd h (by simp)
  · rw [scan.eq_def] at h
    dsimp only at h
    rw [if_neg hb, if_neg (by simp [hc])] at h
    cases hscan : scan stops cs with
    | ok pr =>
      obtain ⟨t0, r0⟩ := pr
      rw [hscan] at h
      have hle := scan_rest_le stops cs t0 r0 hscan
      cases h
      simp
      omega
    | error e => rw [hscan] at h; exact absurd h (by simp)

/-- `lexValue` of the MergeValue revision: the value is the entire remainder
of the input (no escaping, no reserved characters); an empty remainder emits
only the end token. -/
def lexValue (s : List Char) : List Token :=
  if s = [] then [Token.tEnd] else [Token.tValue (String.mk s), Token.tEnd]

mutual

/-- `lexMapKey` of the MergeValue-revision lexer. -/
def lexMapKey : List Char → List Token
  | [] => [Token.tError (unexpectedErr none "a map key")]
  | c :: cs =>
    if h : isStopChar c stopLeftValueChars then
      [Token.tError (unexpectedErr (some c) "a map key")]
    else
      match h2 : scan stopLeftValueChars (c :: cs) with
      | Except.error e => [Token.tError e]
      | Except.ok (t, r) => Token.tMapKey (String.mk t) :: lexLeftValue r
termination_by s => s.length
decreasing_by
  exact scan_cons_lt stopLeftValueChars c cs t r (by simpa using h) h2

/-- `lexLeftValue` of the MergeValue-revision lexer. -/
def lexLeftValue : List Char → List Token
  | [] => [Token.tError (unexpectedErr none "'.', '=' or '['")]
  | '.' :: cs => Token.tMapKeySeparator :: lexMapKey cs
  | '[' :: cs => Token.tArrayIndexStart :: lexArrayIndex cs
  | '=' :: cs => Token.tAssignment :: lexValue cs
  | c :: _ => [Token.tError (unexpectedErr (some c) "'.', '=' or '['")]
termination_by s => s.length
decreasing_by
  · simp
  · simp

/-- `lexArrayIndex` of the MergeValue-revision lexer (`scanArrayIndex` is
the take/drop of the leading digits; `unicode.IsNumber` is modelled as
`Char.isDigit`). -/
def lexArrayIndex : List Char → List Token
  | [] => [Token.tError (unexpectedErr none "an array index")]
  | c :: cs =>
    if h : c.isDigit then
      match h2 : (c :: cs).dropWhile Char.isDigit with
      | ']' :: r2 =>
        Token.tArrayIndex (String.mk ((c :: cs).takeWhile Char.isDigit)) ::
          Token.tArrayIndexFinish :: lexLeftValue r2
      | [] =>
        [Token.tArrayIndex (String.mk ((c :: cs).takeWhile Char.isDigit)),
          Token.tError (unexpectedErr none "']'")]
      | c2 :: _ =>
        [Token.tArrayIndex (String.mk ((c :: cs).takeWhile Char.isDigit)),
          Token.tError (unexpectedErr (some c2) "']'")]
    else [Token.tError (unexpectedErr (some c) "an array index")]
termination_by s => s.length
decreasing_by
  have hdw : ((c :: cs).dropWhile Char.isDigit).length ≤ (c :: cs).length :=
    ((c :: cs).dropWhile_sublist Char.isDigit).length_le
  rw [h2] at hdw
  simp at hdw ⊢
  omega

end

/-- The MergeValue-revision lexer's `run`: the whole token stream, starting
in map-key state. -/
def lexAll (str : String) : List Token := lexMapKey str.toList

end MergeLex

namespace FullLex

/-- `leftValueChars` of the part_004 lexer: the reserved characters of
map-key mode, stored in Go as the excluded keys of a set.  `]` is absent:
it is an ordinary key character in this lexer. -/
def leftValueChars : List Char := ['=', '.', '[']

/-- `rightValueChars`: the reserved characters of value mode. -/
def rightValueChars : List Char := [',', '{', '}']

/-- `stringChars`: inside a quoted string only the single quote is
reserved. -/
def stringChars : List Char := ['\'']

/-- `isCharInSet` of part_004: true when the character is NOT reserved
(may be part of the token). -/
def isCharInSet (c : Char) (set : List Char) : Bool := !(c ∈ set)

/-- `lex.scan` of part_004: collect characters up to the first unescaped
reserved character or the end.  A backslash followed by a reserved
character contributes just that character; a backslash followed by any
allowed character (another backslash included) keeps both characters
literally — this revision has no escape error. -/
def scan (set : List Char) : List Char → List Char × List Char
  | [] => ([], [])
  | c :: cs =>
    if c = '\\' then
      match cs with
      | [] => (['\\'], [])
      | d :: ds =>
        if isCharInSet d set then
          ('\\' :: d :: (scan set ds).1, (scan set ds).2)
        else (d :: (scan set ds).1, (scan set ds).2)
    else if isCharInSet c set then (c :: (scan set cs).1, (scan set cs).2)
    else ([], c :: cs)

/-- Scanning never grows the remainder (termination helper). -/
theorem scanT_rest_le (set : List Char) : ∀ s, ((scan set s).2).length ≤ s.length := by
  intro s
  induction s using scan.induct set with
  | case1 => simp [scan]
  | case2 => simp [scan]
  | case3 d ds hd ih =>
    rw [scan.eq_def]
    dsimp only
    rw [if_pos rfl, if_pos hd]
    simp
    try omega
  | case4 d ds hd ih =>
    rw [scan.eq_def]
    dsimp only
    rw [if_pos rfl, if_neg hd]
    simp
    try omega
  | case5 c cs hb hc ih =>
    rw [scan.eq_def]
    dsimp only
    rw [if_neg hb, if_pos hc]
    simp
    try omega
  | case6 c cs hb hc =>
    rw [scan.eq_def]
    dsimp only
    rw [if_neg hb, if_neg hc]

/-- A scan that starts before an allowed character consumes at least that
character (termination helper). -/
theorem scanT_cons_lt (set : List Char) (c : Char) (cs : List Char)
    (hc : isCharInSet c set = true) :
    ((scan set (c :: cs)).2).length < (c :: cs).length := by
  by_cases hb : c = '\\'
  · subst hb
    cases cs with
    | nil => simp [scan]
    | cons d ds =>
      rw [scan.eq_def]
      dsimp only
      rw [if_pos rfl]
      have hle := scanT_rest_le set ds
      by_cases hd : isCharInSet d set = true
      · rw [if_pos hd]
        simp
        try omega
      · rw [if_neg hd]
        simp
        try omega
  · rw [scan.eq_def]
    dsimp only
    rw [if_neg hb, if_pos hc]
    have hle := scanT_rest_le set cs
    simp
    try omega

mutual

/-- `lexMapKey` of the part_004 lexer. -/
def lexMapKey : List Char → List Token
  | [] => [Token.tError (unexpectedErr none "a map key")]
  | c :: cs =>
    if h : isCharInSet c leftValueChars then
      Token.tMapKey (String.mk (scan leftValueChars (c :: cs)).1) ::
        lexLeftValue (scan leftValueChars (c :: cs)).2
    else [Token.tError (unexpectedErr (some c) "a map key")]
termination_by s => s.length
decreasing_by
  exact scanT_cons_lt leftValueChars c cs h

/-- `lexLeftValue` of the part_004 lexer. -/
def lexLeftValue : List Char → List Token
  | [] => [Token.tError (unexpectedErr none "'.', '=' or '['")]
  | '.' :: cs => Token.tMapKeySeparator :: lexMapKey cs
  | '[' :: cs => Token.tArrayIndexStart :: lexArrayIndex cs
  | '=' :: cs => Token.tAssignment :: lexRightValue cs
  | c :: _ => [Token.tError (unexpectedErr (some c) "'.', '=' or '['")]
termination_by s => s.length
decreasing_by
  · simp
  · simp
  · simp

/-- `lexArrayIndex` of the part_004 lexer. -/
def lexArrayIndex : List Char → List Token
  | [] => [Token.tError (unexpectedErr none "an array index")]
  | c :: cs =>
    if h : c.isDigit then
      match h2 : (c :: cs).dropWhile Char.isDigit with
      | ']' :: r2 =>
        Token.tArrayIndex (String.mk ((c :: cs).takeWhile Char.isDigit)) ::
          Token.tArrayIndexFinish :: lexLeftValue r2
      | [] =>
        [Token.tArrayIndex (String.mk ((c :: cs).takeWhile Char.isDigit)),
          Token.tError (unexpectedErr none "']'")]
      | c2 :: _ =>
        [Token.tArrayIndex (String.mk ((c :: cs).takeWhile Char.isDigit)),
          Token.tError (unexpectedErr (some c2) "']'")]
    else [Token.tError (unexpectedErr (some c) "an array index")]
termination_by s => s.length
decreasing_by
  have hdw : ((c :: cs).dropWhile Char.isDigit).length ≤ (c :: cs).length :=
    ((c :: cs).dropWhile_sublist Char.isDigit).length_le
  rw [h2] at hdw
  simp at hdw ⊢
  omega

/-- `lexRightValue` of the part_004 lexer: end, verbatim (`@` consumes the
whole remainder), braced list, empty value before a next clause, quoted
string, or a bare value; `}` is the only reserved character left for the
error case. -/
def lexRightValue : List Char → List Token
  | [] => [Token.tEnd]
  | '@' :: cs => [Token.tVerbatimString (String.mk cs), Token.tEnd]
  | '{' :: cs => Token.tValueArrayStart :: lexArrayValue cs
  | ',' :: cs => Token.tNextKey :: lexMapKey cs
  | '\'' :: cs => lexString false cs
  | c :: cs =>
    if h : isCharInSet c rightValueChars then
      Token.tValue (String.mk (scan rightValueChars (c :: cs)).1) ::
        lexNextMapKey (scan rightValueChars (c :: cs)).2
    else [Token.tError (unexpectedErr (some c) "'\x7b', ',', a value or the end")]
termination_by s => s.length
decreasing_by
  · simp
  · simp
  · simp
  · exact scanT_cons_lt rightValueChars c cs h

/-- `lex.lexString` of the part_004 lexer: the opening quote is already part
of the token, the scan stops at the first unescaped quote, which must be
present; the flag selects the continuation state (inside a braced list or
not). -/
def lexString (inArray : Bool) (cs : List Char) : List Token :=
  match h2 : (scan stringChars cs).2 with
  | '\'' :: r2 =>
    Token.tString (String.mk ('\'' :: (scan stringChars cs).1 ++ ['\''])) ::
      (if inArray then lexNextArrayValue r2 else lexNextMapKey r2)
  | r =>
    [Token.tError ("unterminated string, expected ''', got " ++ strRuneStr r.head?)]
termination_by cs.length
decreasing_by
  all_goals
    have hle := scanT_rest_le stringChars cs
    rw [h2] at hle
    simp at hle ⊢
    omega

/-- `lexArrayValue` of the part_004 lexer (the element position of a braced
list). -/
def lexArrayValue : List Char → List Token
  | [] => [Token.tError (unexpectedErr none "'\x7d', ',' or a value")]
  | '}' :: cs => Token.tValueArrayFinish :: lexNextMapKey cs
  | ',' :: cs => Token.tNextValue :: lexArrayValue cs
  | '\'' :: cs => lexString true cs
  | c :: cs =>
    if h : isCharInSet c rightValueChars then
      Token.tValue (String.mk (scan rightValueChars (c :: cs)).1) ::
        lexNextArrayValue (scan rightValueChars (c :: cs)).2
    else [Token.tError (unexpectedErr (some c) "'\x7d', ',' or a value")]
termination_by s => s.length
decreasing_by
  · simp
  · simp
  · simp
  · exact scanT_cons_lt rightValueChars c cs h

/-- `lexNextArrayValue` of the part_004 lexer (after an element of a braced
list). -/
def lexNextArrayValue : List Char → List Token
  | ',' :: cs => Token.tNextValue :: lexArrayValue cs
  | '}' :: cs => Token.tValueArrayFinish :: lexNextMapKey cs
  | [] => [Token.tError (unexpectedErr none "',' or '\x7d'")]
  | c :: _ => [Token.tError (unexpectedErr (some c) "',' or '\x7d'")]
termination_by s => s.length
decreasing_by
  · simp
  · simp

/-- `lexNextMapKey` of the part_004 lexer (after a complete clause). -/
def lexNextMapKey : List Char → List Token
  | [] => [Token.tEnd]
  | ',' :: cs => Token.tNextKey :: lexMapKey cs
  | c :: _ => [Token.tError (unexpectedErr (some c) "',' or the end")]
termination_by s => s.length
decreasing_by
  simp

end

/-- The part_004 lexer's `run`: the whole token stream, starting in map-key
state. -/
def lexAll (str : String) : List Token := lexMapKey str.toList

end FullLex

/-- A right-hand-value reader that consumes at least one token whenever it
succeeds on a non-empty stream (termination helper for the clause loop). -/
def ReaderConsumes (reader : List Token → Except String (Value × List Token)) : Prop :=
  ∀ ts v r, reader ts = Except.ok (v, r) → r.length < ts.length ∨ r = []

theorem readRightValue_consumes : ReaderConsumes readRightValue := by
  intro ts v r h
  match ts with
  | Token.tEnd :: ts2 => simp [readRightValue] at h; left; simp [h.2]
  | Token.tValue w :: ts2 => simp [readRightValue] at h; left; simp [h.2]
  | [] => simp [readRightValue] at h; right; exact h.2
  | Token.tError e :: ts2 => simp [readRightValue] at h
  | Token.tMapKey k :: ts2 => simp [readRightValue] at h
  | Token.tMapKeySeparator :: ts2 => simp [readRightValue] at h
  | Token.tArrayIndexStart :: ts2 => simp [readRightValue] at h
  | Token.tArrayIndexFinish :: ts2 => simp [readRightValue] at h
  | Token.tArrayIndex d :: ts2 => simp [readRightValue] at h
  | Token.tAssignment :: ts2 => simp [readRightValue] at h
  | Token.tString sv :: ts2 => simp [readRightValue] at h
  | Token.tVerbatimString sv :: ts2 => simp [readRightValue] at h
  | Token.tNextKey :: ts2 => simp [readRightValue] at h
  | Token.tValueArrayStart :: ts2 => simp [readRightValue] at h
  | Token.tValueArrayFinish :: ts2 => simp [readRightValue] at h
  | Token.tNextValue :: ts2 => simp [readRightValue] at h

theorem readRightString_consumes : ReaderConsumes readRightString := by
  intro ts v r h
  match ts with
  | Token.tEnd :: ts2 => simp [readRightString] at h; left; simp [h.2]
  | Token.tValue w :: ts2 => simp [readRightString] at h; left; simp [h.2]
  | [] => simp [readRightString] at h; right; exact h.2
  | Token.tError e :: ts2 => simp [readRightString] at h
  | Token.tMapKey k :: ts2 => simp [readRightString] at h
  | Token.tMapKeySeparator :: ts2 => simp [readRightString] at h
  | Token.tArrayIndexStart :: ts2 => simp [readRightString] at h
  | Token.tArrayIndexFinish :: ts2 => simp [readRightString] at h
  | Token.tArrayIndex d :: ts2 => simp [readRightString] at h
  | Token.tAssignment :: ts2 => simp [readRightString] at h
  | Token.tString sv :: ts2 => simp [readRightString] at h
  | Token.tVerbatimString sv :: ts2 => simp [readRightString] at h
  | Token.tNextKey :: ts2 => simp [readRightString] at h
  | Token.tValueArrayStart :: ts2 => simp [readRightString] at h
  | Token.tValueArrayFinish :: ts2 => simp [readRightString] at h
  | Token.tNextValue :: ts2 => simp [readRightString] at h

theorem readValuesArray_rest_lt :
    ∀ ts vd arr a r, readValuesArray ts vd arr = Except.ok (a, r) →
      r.length < ts.length := by
  intro ts
  induction ts with
  | nil => intro vd arr a r h; simp [readValuesArray] at h
  | cons t ts2 ih =>
    intro vd arr a r h
    match t with
    | Token.tValue v =>
      simp only [readValuesArray] at h
      have := ih _ _ _ _ h
      simp
      omega
    | Token.tString sv =>
      simp only [readValuesArray] at h
      have := ih _ _ _ _ h
      simp
      omega
    | Token.tNextValue =>
      simp only [readValuesArray] at h
      have := ih _ _ _ _ h
      simp
      omega
    | Token.tValueArrayFinish =>
      simp only [readValuesArray] at h
      cases h
      simp
    | Token.tEnd => simp [readValuesArray] at h
    | Token.tError e => simp [readValuesArray] at h
    | Token.tMapKey k => simp [readValuesArray] at h
    | Token.tMapKeySeparator => simp [readValuesArray] at h
    | Token.tArrayIndexStart => simp [readValuesArray] at h
    | Token.tArrayIndexFinish => simp [readValuesArray] at h
    | Token.tArrayIndex d => simp [readValuesArray] at h
    | Token.tAssignment => simp [readValuesArray] at h
    | Token.tVerbatimString sv => simp [readValuesArray] at h
    | Token.tNextKey => simp [readValuesArray] at h
    | Token.tValueArrayStart => simp [readValuesArray] at h

theorem readRightValueU_consumes : ReaderConsumes readRightValueU := by
  intro ts v r h
  match ts with
  | Token.tEnd :: ts2 => simp [readRightValueU] at h; left; simp [h.2]
  | Token.tValue w :: ts2 => simp [readRightValueU] at h; left; simp [h.2]
  | Token.tString sv :: ts2 => simp [readRightValueU] at h; left; simp [h.2]
  | Token.tVerbatimString sv :: ts2 => simp [readRightValueU] at h; left; simp [h.2]
  | Token.tValueArrayStart :: ts2 =>
    simp only [readRightValueU] at h
    cases hva : readValuesArray ts2 false [] with
    | ok pr =>
      obtain ⟨a, r2⟩ := pr
      rw [hva] at h
      have := readValuesArray_rest_lt ts2 false [] a r2 hva
      cases h
      left
      simp
      omega
    | error e => rw [hva] at h; exact absurd h (by simp)
  | [] => simp [readRightValueU] at h; right; exact h.2
  | Token.tError e :: ts2 => simp [readRightValueU] at h
  | Token.tMapKey k :: ts2 => simp [readRightValueU] at h
  | Token.tMapKeySeparator :: ts2 => simp [readRightValueU] at h
  | Token.tArrayIndexStart :: ts2 => simp [readRightValueU] at h
  | Token.tArrayIndexFinish :: ts2 => simp [readRightValueU] at h
  | Token.tArrayIndex d :: ts2 => simp [readRightValueU] at h
  | Token.tAssignment :: ts2 => simp [readRightValueU] at h
  | Token.tNextKey :: ts2 => simp [readRightValueU] at h
  | Token.tValueArrayFinish :: ts2 => simp [readRightValueU] at h
  | Token.tNextValue :: ts2 => simp [readRightValueU] at h

/-- A successful clause consumes at least one token unless the stream was
already exhausted (termination helper for the clause loop of `parse`). -/
theorem read_rest_lt (reader : List Token → Except String (Value × List Token))
    (hr : ReaderConsumes reader) :
    ∀ n ts, ts.length ≤ n → ∀ b m r,
      (readMap reader b ts = Except.ok (m, r) → r.length < ts.length ∨ r = []) ∧
      (readLeftValue reader b ts = Except.ok (m, r) → r.length < ts.length ∨ r = []) ∧
      (readArray reader b ts = Except.ok (m, r) → r.length < ts.length ∨ r = []) := by
  intro n
  induction n with
  | zero =>
    intro ts hts b m r
    have : ts = [] := List.length_eq_zero.mp (Nat.le_zero.mp hts)
    subst this
    refine ⟨?_, ?_, ?_⟩ <;> intro h <;> simp [readMap, readLeftValue, readArray] at h
  | succ n ih =>
    intro ts hts b m r
    match ts with
    | [] =>
      refine ⟨?_, ?_, ?_⟩ <;> intro h <;> simp [readMap, readLeftValue, readArray] at h
    | t :: ts2 =>
      have hts2 : ts2.length ≤ n := by simp at hts; omega
      refine ⟨?_, ?_, ?_⟩ <;> intro h
      · match t with
        | Token.tMapKey k =>
          simp only [readMap] at h
          rcases (ih ts2 hts2 (b.newMapBuilder k) m r).2.1 h with h2 | h2
          · left; simp; omega
          · right; exact h2
        | Token.tEnd => simp [readMap] at h
        | Token.tError e => simp [readMap] at h
        | Token.tMapKeySeparator => simp [readMap] at h
        | Token.tArrayIndexStart => simp [readMap] at h
        | Token.tArrayIndexFinish => simp [readMap] at h
        | Token.tArrayIndex d => simp [readMap] at h
        | Token.tAssignment => simp [readMap] at h
        | Token.tValue v => simp [readMap] at h
        | Token.tString sv => simp [readMap] at h
        | Token.tVerbatimString sv => simp [readMap] at h
        | Token.tNextKey => simp [readMap] at h
        | Token.tValueArrayStart => simp [readMap] at h
        | Token.tValueArrayFinish => simp [readMap] at h
        | Token.tNextValue => simp [readMap] at h
      · match t with
        | Token.tMapKeySeparator =>
          simp only [readLeftValue] at h
          rcases (ih ts2 hts2 b m r).1 h with h2 | h2
          · left; simp; omega
          · right; exact h2
        | Token.tArrayIndexStart =>
          simp only [readLeftValue] at h
          rcases (ih ts2 hts2 b m r).2.2 h with h2 | h2
          · left; simp; omega
          · right; exact h2
        | Token.tAssignment =>
          simp only [readLeftValue] at h
          cases hrd : reader ts2 with
          | ok pr =>
            obtain ⟨v, r2⟩ := pr
            rw [hrd] at h
            rcases hr ts2 v r2 hrd with h2 | h2
            · cases h
              left
              simp
              omega
            · cases h
              right
              exact h2
          | error e => rw [hrd] at h; exact absurd h (by simp)
        | Token.tEnd => simp [readLeftValue] at h
        | Token.tError e => simp [readLeftValue] at h
        | Token.tMapKey k => simp [readLeftValue] at h
        | Token.tArrayIndexFinish => simp [readLeftValue] at h
        | Token.tArrayIndex d => simp [readLeftValue] at h
        | Token.tValue v => simp [readLeftValue] at h
        | Token.tString sv => simp [readLeftValue] at h
        | Token.tVerbatimString sv => simp [readLeftValue] at h
        | Token.tNextKey => simp [readLeftValue] at h
        | Token.tValueArrayStart => simp [readLeftValue] at h
        | Token.tValueArrayFinish => simp [readLeftValue] at h
        | Token.tNextValue => simp [readLeftValue] at h
      · match t with
        | Token.tArrayIndex d =>
          rw [readArray.eq_def] at h
          dsimp only at h
          cases hat : Strconv.atoi d with
          | error e => rw [hat] at h; exact absurd h (by simp)
          | ok i =>
            rw [hat] at h
            dsimp only at h
            match ts2 with
            | Token.tArrayIndexFinish :: ts3 =>
              have hts3 : ts3.length ≤ n := by simp at hts2 ⊢; omega
              rcases (ih ts3 hts3 (b.newArrayBuilder i) m r).2.1 h with h2 | h2
              · left; simp; omega
              · right; exact h2
            | [] => simp at h
            | Token.tEnd :: ts3 => simp at h
            | Token.tError e :: ts3 => simp at h
            | Token.tMapKey k :: ts3 => simp at h
            | Token.tMapKeySeparator :: ts3 => simp at h
            | Token.tArrayIndexStart :: ts3 => simp at h
            | Token.tArrayIndex d2 :: ts3 => simp at h
            | Token.tAssignment :: ts3 => simp at h
            | Token.tValue v :: ts3 => simp at h
            | Token.tString sv :: ts3 => simp at h
            | Token.tVerbatimString sv :: ts3 => simp at h
            | Token.tNextKey :: ts3 => simp at h
            | Token.tValueArrayStart :: ts3 => simp at h
            | Token.tValueArrayFinish :: ts3 => simp at h
            | Token.tNextValue :: ts3 => simp at h
        | Token.tEnd => simp [readArray] at h
        | Token.tError e => simp [readArray] at h
        | Token.tMapKey k => simp [readArray] at h
        | Token.tMapKeySeparator => simp [readArray] at h
        | Token.tArrayIndexStart => simp [readArray] at h
        | Token.tArrayIndexFinish => simp [readArray] at h
        | Token.tAssignment => simp [readArray] at h
        | Token.tValue v => simp [readArray] at h
        | Token.tString sv => simp [readArray] at h
        | Token.tVerbatimString sv => simp [readArray] at h
        | Token.tNextKey => simp [readArray] at h
        | Token.tValueArrayStart => simp [readArray] at h
        | Token.tValueArrayFinish => simp [readArray] at h
        | Token.tNextValue => simp [readArray] at h

/-- `parser.parse` of src/unnamed/part_002: the clause loop
`(key=[value])[,(key=[value])]`.  Returns the destination map as mutated so
far together with the error, mirroring the in-place mutation of the
caller's map (a failed clause contributes nothing, see `Cursor.set`).  An
exhausted token list behaves like the end token (the zero token of the
closed Go channel, see `streamEnded`). -/
def parse (m : GoMap) (ts : List Token) : GoMap × Option String :=
  match h : readMap readRightValueU (Cursor.root m) ts with
  | Except.error e => (m, some e)
  | Except.ok (m2, Token.tEnd :: _) => (m2, none)
  | Except.ok (m2, Token.tNextKey :: rest2) => parse m2 rest2
  | Except.ok (m2, t :: _) => (m2, some (tokenToError t))
  | Except.ok (m2, []) => (m2, none)
termination_by ts.length
decreasing_by
  rcases (read_rest_lt readRightValueU readRightValueU_consumes ts.length ts le_rfl
    (Cursor.root m) m2 (Token.tNextKey :: rest2)).1 h with hlt | hlt
  · simp at hlt
    omega
  · exact absurd hlt (by simp)

/-- `Unmarshal` of src/unnamed/part_002 over the part_004 lexer. -/
def unmarshal (str : String) (m : GoMap) : GoMap × Option String :=
  parse m (FullLex.lexAll str)

/-- `parser.append` of src/parser.go: a single clause against the
MergeValue-revision lexer; on failure the destination map is returned
unchanged (the lexer is drained and dropped). -/
def append (reader : List Token → Except String (Value × List Token))
    (m : GoMap) (ts : List Token) : GoMap × Option String :=
  match readMap reader (Cursor.root m) ts with
  | Except.error e => (m, some e)
  | Except.ok (m2, _) => (m2, none)

/-- `MergeValue` of src/parser.go. -/
def mergeValue (m : GoMap) (str : String) : GoMap × Option String :=
  append readRightValue m (MergeLex.lexAll str)

/-- `MergeString` of src/parser.go. -/
def mergeString (m : GoMap) (str : String) : GoMap × Option String :=
  append readRightString m (MergeLex.lexAll str)

/-- The map stored under key `a` of the destination, as the builder sees it
when descending: the existing map when the slot holds one, otherwise a
fresh empty map (observer used to state the merge theorems). -/
def aSub (m : GoMap) : GoMap :=
  match lookup m "a" with
  | some (Value.VMap mm) => mm
  | _ => []

theorem lookup_setKey_self (m : GoMap) (k : String) (v : Value) :
    lookup (setKey m k v) k = some v := by
  induction m with
  | nil => simp [setKey, lookup]
  | cons p rest ih =>
    obtain ⟨k0, v0⟩ := p
    by_cases hk : k0 = k
    · subst hk
      simp [setKey, lookup]
    · simp [setKey, lookup, hk, ih]

theorem lookup_setKey_ne (m : GoMap) (k k2 : String) (v : Value) (hk : k ≠ k2) :
    lookup (setKey m k v) k2 = lookup m k2 := by
  induction m with
  | nil => simp [setKey, lookup, hk]
  | cons p rest ih =>
    obtain ⟨k0, v0⟩ := p
    by_cases hk0 : k0 = k
    · subst hk0
      simp [setKey, lookup, hk]
    · simp [setKey, lookup, hk0, ih]

theorem mk_toList (s : String) : String.mk s.toList = s := rfl

theorem toList_eq_nil (s : String) : s.toList = [] ↔ s = "" := by
  constructor
  · intro h
    cases s with
    | mk data => simp [String.toList] at h; simp [h]
  · intro h
    simp [h]

theorem dropWhile_append_of_all (p : Char → Bool) (l1 l2 : List Char)
    (h : ∀ c ∈ l1, p c = true) : (l1 ++ l2).dropWhile p = l2.dropWhile p := by
  induction l1 with
  | nil => simp
  | cons c cs ih =>
    simp only [List.cons_append, List.dropWhile_cons, h c (by simp)]
    exact ih (fun d hd => h d (by simp [hd]))

theorem takeWhile_append_of_not (p : Char → Bool) (l1 l2 : List Char)
    (h1 : ∀ c ∈ l1, p c = true) (h2 : ∀ d r, l2 = d :: r → p d = false) :
    (l1 ++ l2).takeWhile p = l1 := by
  induction l1 with
  | nil =>
    cases l2 with
    | nil => simp
    | cons d r => simp [List.takeWhile_cons, h2 d r rfl]
  | cons c cs ih =>
    simp only [List.cons_append, List.takeWhile_cons, h1 c (by simp)]
    simp [ih (fun d hd => h1 d (by simp [hd]))]

theorem set_replicate_last (k : Nat) (x v : Value) :
    (List.replicate (k + 1) x).set k v = List.replicate k x ++ [v] := by
  induction k with
  | zero => simp
  | succ n ih =>
    simp only [List.replicate_succ, List.set, List.cons_append, List.cons.injEq, true_and]
    rw [← List.replicate_succ]
    exact ih

theorem toList_append (s t : String) : (s ++ t).toList = s.toList ++ t.toList :=
  String.data_append s t

theorem scan_stop_head (stops : List Char) (c : Char) (cs : List Char)
    (hb : c ≠ '\\') (hc : MergeLex.isStopChar c stops = true) :
    MergeLex.scan stops (c :: cs) = Except.ok ([], c :: cs) := by
  rw [MergeLex.scan.eq_def]
  dsimp only
  rw [if_neg hb, if_pos hc]

theorem scan_ord_head (stops : List Char) (c : Char) (cs t r : List Char)
    (hb : c ≠ '\\') (hc : MergeLex.isStopChar c stops = false)
    (h : MergeLex.scan stops cs = Except.ok (t, r)) :
    MergeLex.scan stops (c :: cs) = Except.ok (c :: t, r) := by
  rw [MergeLex.scan.eq_def]
  dsimp only
  rw [if_neg hb, if_neg (by simp [hc]), h]

theorem lexMapKey_ok (c : Char) (cs t r : List Char)
    (hguard : MergeLex.isStopChar c MergeLex.stopLeftValueChars = false)
    (hscan : MergeLex.scan MergeLex.stopLeftValueChars (c :: cs) = Except.ok (t, r)) :
    MergeLex.lexMapKey (c :: cs) =
      Token.tMapKey (String.mk t) :: MergeLex.lexLeftValue r := by
  rw [MergeLex.lexMapKey.eq_def]
  dsimp only
  rw [dif_neg (by simp [hguard])]
  split
  next e heq =>
    rw [hscan] at heq
    simp at heq
  next t2 r2 heq =>
    rw [hscan] at heq
    simp at heq
    obtain ⟨h1, h2⟩ := heq
    subst h1
    subst h2
    rfl

theorem mergeValue_a_key (c2 : Char)
    (h1 : MergeLex.isStopChar c2 MergeLex.stopLeftValueChars = false) (h2 : c2 ≠ '\\')
    (m : GoMap) (v : String) :
    mergeValue m ("a." ++ String.mk [c2] ++ "=" ++ v) =
      (setKey m "a" (Value.VMap (setKey (aSub m) (String.mk [c2]) (tryParse v))), none) := by
  have htl : ("a." ++ String.mk [c2] ++ "=" ++ v).toList
      = 'a' :: '.' :: c2 :: '=' :: v.toList := by
    rw [toList_append, toList_append, toList_append]
    rfl
  have hscanEq : MergeLex.scan MergeLex.stopLeftValueChars ('=' :: v.toList) =
      Except.ok ([], '=' :: v.toList) := scan_stop_head _ _ _ (by decide) (by decide)
  have hscanC2 : MergeLex.scan MergeLex.stopLeftValueChars (c2 :: '=' :: v.toList) =
      Except.ok ([c2], '=' :: v.toList) := scan_ord_head _ _ _ _ _ h2 h1 hscanEq
  have hscanDot : MergeLex.scan MergeLex.stopLeftValueChars ('.' :: c2 :: '=' :: v.toList) =
      Except.ok ([], '.' :: c2 :: '=' :: v.toList) :=
    scan_stop_head _ _ _ (by decide) (by decide)
  have hscanA : MergeLex.scan MergeLex.stopLeftValueChars ('a' :: '.' :: c2 :: '=' :: v.toList) =
      Except.ok (['a'], '.' :: c2 :: '=' :: v.toList) :=
    scan_ord_head _ _ _ _ _ (by decide) (by decide) hscanDot
  have hlex : MergeLex.lexAll ("a." ++ String.mk [c2] ++ "=" ++ v) =
      Token.tMapKey "a" :: Token.tMapKeySeparator :: Token.tMapKey (String.mk [c2]) ::
        Token.tAssignment :: MergeLex.lexValue v.toList := by
    rw [MergeLex.lexAll, htl]
    rw [lexMapKey_ok 'a' _ _ _ (by decide) hscanA]
    simp only [MergeLex.lexLeftValue.eq_def]
    rw [lexMapKey_ok c2 _ _ _ h1 hscanC2]
    simp only [MergeLex.lexLeftValue.eq_def]
  rw [mergeValue, append, hlex]
  have hmk : String.mk v.toList = v := rfl
  by_cases hv : v.toList = []
  · have hv2 : v = "" := by
      cases v with
      | mk data => simp [String.toList] at hv; simp [hv]
    subst hv2
    simp only [hv, MergeLex.lexValue]
    cases hl : lookup m "a" with
    | none =>
      simp [readMap, readLeftValue, readRightValue, Cursor.newMapBuilder, Cursor.set, hl, aSub,
        tryParse, Strconv.parseBool, Strconv.parseInt64, Strconv.floatAccepts,
        Strconv.specialAccepts, Strconv.readFloatAccepts, Strconv.decTail, Strconv.mantLoop,
        Strconv.equalFold]
    | some v0 =>
      cases v0 <;>
        simp [readMap, readLeftValue, readRightValue, Cursor.newMapBuilder, Cursor.set, hl, aSub,
          tryParse, Strconv.parseBool, Strconv.parseInt64, Strconv.floatAccepts,
          Strconv.specialAccepts, Strconv.readFloatAccepts, Strconv.decTail, Strconv.mantLoop,
          Strconv.equalFold]
  · simp only [MergeLex.lexValue, if_neg hv, hmk]
    cases hl : lookup m "a" with
    | none =>
      simp [readMap, readLeftValue, readRightValue, Cursor.newMapBuilder, Cursor.set, hl, aSub]
    | some v0 =>
      cases v0 <;>
        simp [readMap, readLeftValue, readRightValue, Cursor.newMapBuilder, Cursor.set, hl, aSub]

theorem setKey_setKey_same (m : GoMap) (k : String) (v w : Value) :
    setKey (setKey m k v) k w = setKey m k w := by
  induction m with
  | nil => simp [setKey]
  | cons p rest ih =>
    by_cases h : p.1 = k
    · simp [setKey, h]
    · simp [setKey, h, ih]

/-- C3: merging "a.b=v1" and then "a.c=v2" in two calls composes: the result maps
"a" to a sub-map holding both coerced values, sibling keys of the sub-map and all
other root keys are preserved, and neither call errors. -/
theorem C3_merge_compose_siblings (m : GoMap) (v1 v2 : String) :
    ∃ ma : GoMap,
      (mergeValue m ("a.b=" ++ v1)).2 = none ∧
      mergeValue (mergeValue m ("a.b=" ++ v1)).1 ("a.c=" ++ v2) =
        (setKey m "a" (Value.VMap ma), none) ∧
      lookup ma "b" = some (tryParse v1) ∧
      lookup ma "c" = some (tryParse v2) ∧
      (∀ k, k ≠ "b" → k ≠ "c" → lookup ma k = lookup (aSub m) k) ∧
      (∀ k, k ≠ "a" → lookup (setKey m "a" (Value.VMap ma)) k = lookup m k) := by
  have h1 : mergeValue m ("a.b=" ++ v1) =
      (setKey m "a" (Value.VMap (setKey (aSub m) "b" (tryParse v1))), none) :=
    mergeValue_a_key 'b' (by decide) (by decide) m v1
  set m1 : GoMap := setKey m "a" (Value.VMap (setKey (aSub m) "b" (tryParse v1))) with hm1
  have h2 : mergeValue m1 ("a.c=" ++ v2) =
      (setKey m1 "a" (Value.VMap (setKey (aSub m1) "c" (tryParse v2))), none) :=
    mergeValue_a_key 'c' (by decide) (by decide) m1 v2
  have haSub : aSub m1 = setKey (aSub m) "b" (tryParse v1) := by
    rw [hm1]
    simp [aSub, lookup_setKey_self]
  refine ⟨setKey (setKey (aSub m) "b" (tryParse v1)) "c" (tryParse v2), ?_, ?_, ?_, ?_, ?_, ?_⟩
  · rw [h1]
  · rw [h1]
    dsimp only
    rw [h2, haSub, hm1]
    rw [setKey_setKey_same]
  · rw [lookup_setKey_ne _ _ _ _ (by decide), lookup_setKey_self]
  · rw [lookup_setKey_self]
  · intro k hb hc
    rw [lookup_setKey_ne _ _ _ _ (Ne.symm hc), lookup_setKey_ne _ _ _ _ (Ne.symm hb)]
  · intro k hk
    rw [lookup_setKey_ne _ _ _ _ (Ne.symm hk)]

theorem toList_mk (l : List Char) : (String.mk l).toList = l := rfl

theorem atoi_digits (c : Char) (cs : List Char) (hcd : c.isDigit = true)
    (h2 : Strconv.allDigits (c :: cs) = true)
    (h3 : Strconv.digitsToNat (c :: cs) ≤ 2 ^ 63 - 1) :
    Strconv.atoi (String.mk (c :: cs)) =
      Except.ok ((Strconv.digitsToNat (c :: cs) : Int)) := by
  have hcm : ¬(c = '-' ∨ c = '+') := by
    rintro (rfl | rfl) <;> exact absurd hcd (by decide)
  have hneg : (c = '-') = False := by
    simp only [eq_iff_iff, iff_false]
    rintro rfl
    exact absurd hcd (by decide)
  simp only [Strconv.atoi, Strconv.parseInt64, toList_mk]
  rw [if_neg hcm]
  simp only [ne_eq, reduceCtorEq, not_false_eq_true, h2, and_self, if_true, hneg]
  simp only [decide_False, if_false, h3, if_true]
  simp

theorem lexArrayIndex_ok (c : Char) (cs r2 : List Char)
    (hc : c.isDigit = true)
    (hdrop : (c :: cs).dropWhile Char.isDigit = ']' :: r2) :
    MergeLex.lexArrayIndex (c :: cs) =
      Token.tArrayIndex (String.mk ((c :: cs).takeWhile Char.isDigit)) ::
        Token.tArrayIndexFinish :: MergeLex.lexLeftValue r2 := by
  rw [MergeLex.lexArrayIndex.eq_def]
  dsimp only
  rw [dif_pos hc]
  split
  next r2' heq =>
    rw [hdrop] at heq
    simp at heq
    subst heq
    rfl
  next heq =>
    rw [hdrop] at heq
    simp at heq
  next d tl hne heq =>
    rw [hdrop] at heq
    simp at heq
    exact absurd heq.1.symm hne

theorem set_append_ge (a l : List Value) (n : Nat) (w : Value) (h : a.length ≤ n) :
    (a ++ l).set n w = a ++ l.set (n - a.length) w := by
  induction a generalizing n with
  | nil => simp
  | cons x xs ih =>
    cases n with
    | zero => simp at h
    | succ k =>
      simp only [List.cons_append, List.set, List.length_cons, List.append_eq]
      rw [ih k (by simpa using h)]
      simp [Nat.succ_sub_succ]

theorem arraySet_grow (a : List Value) (n : Nat) (w : Value) (h : a.length ≤ n) :
    arraySet a (n : Int) w = a ++ List.replicate (n - a.length) Value.VNull ++ [w] := by
  simp only [arraySet]
  rw [if_pos (by omega)]
  have h1 : ((n : Int) + 1 - (a.length : Int)).toNat = (n - a.length) + 1 := by omega
  have h2 : ((n : Int)).toNat = n := by omega
  rw [h1, h2, set_append_ge a _ n w h]
  rw [set_replicate_last]
  simp

theorem arraySet_nil (n : Nat) (w : Value) :
    arraySet [] (n : Int) w = List.replicate n Value.VNull ++ [w] := by
  have := arraySet_grow [] n w (Nat.zero_le n)
  simpa using this

theorem merge_k_array (c : Char) (cs : List Char) (v : String)
    (h2 : Strconv.allDigits (c :: cs) = true)
    (h3 : Strconv.digitsToNat (c :: cs) ≤ 2 ^ 63 - 1) :
    mergeValue [] ("k[" ++ String.mk (c :: cs) ++ "]=" ++ v) =
      ([("k", Value.VArr (List.replicate (Strconv.digitsToNat (c :: cs)) Value.VNull ++
          [tryParse v]))], none) := by
  have hcd : c.isDigit = true := by
    simp [Strconv.allDigits] at h2
    exact h2.1
  have hall : ∀ x ∈ c :: cs, x.isDigit = true := by
    intro x hx
    have h4 := h2
    simp [Strconv.allDigits] at h4
    rcases List.mem_cons.mp hx with rfl | hx2
    · exact h4.1
    · exact h4.2 x hx2
  have htl : ("k[" ++ String.mk (c :: cs) ++ "]=" ++ v).toList
      = 'k' :: '[' :: c :: (cs ++ ']' :: '=' :: v.toList) := by
    rw [toList_append, toList_append, toList_append]
    simp [toList_mk]
  have hscanBr : MergeLex.scan MergeLex.stopLeftValueChars ('[' :: c :: (cs ++ ']' :: '=' :: v.toList)) =
      Except.ok ([], '[' :: c :: (cs ++ ']' :: '=' :: v.toList)) :=
    scan_stop_head _ _ _ (by decide) (by decide)
  have hscanK : MergeLex.scan MergeLex.stopLeftValueChars ('k' :: '[' :: c :: (cs ++ ']' :: '=' :: v.toList)) =
      Except.ok (['k'], '[' :: c :: (cs ++ ']' :: '=' :: v.toList)) :=
    scan_ord_head _ _ _ _ _ (by decide) (by decide) hscanBr
  have hdrop : (c :: (cs ++ ']' :: '=' :: v.toList)).dropWhile Char.isDigit
      = ']' :: '=' :: v.toList := by
    have he : (c :: (cs ++ ']' :: '=' :: v.toList)) = (c :: cs) ++ (']' :: '=' :: v.toList) := by
      simp
    rw [he, dropWhile_append_of_all Char.isDigit (c :: cs) _ hall]
    simp [List.dropWhile_cons]
  have htake : (c :: (cs ++ ']' :: '=' :: v.toList)).takeWhile Char.isDigit = c :: cs := by
    have he : (c :: (cs ++ ']' :: '=' :: v.toList)) = (c :: cs) ++ (']' :: '=' :: v.toList) := by
      simp
    rw [he, takeWhile_append_of_not Char.isDigit (c :: cs) _ hall]
    intro d r h
    cases h
    decide
  have hlex : MergeLex.lexAll ("k[" ++ String.mk (c :: cs) ++ "]=" ++ v) =
      Token.tMapKey "k" :: Token.tArrayIndexStart ::
        Token.tArrayIndex (String.mk (c :: cs)) :: Token.tArrayIndexFinish ::
          Token.tAssignment :: MergeLex.lexValue v.toList := by
    rw [MergeLex.lexAll, htl]
    rw [lexMapKey_ok 'k' _ _ _ (by decide) hscanK]
    simp only [MergeLex.lexLeftValue.eq_def]
    rw [lexArrayIndex_ok c _ _ hcd hdrop, htake]
    simp only [MergeLex.lexLeftValue.eq_def]
  have hatoi := atoi_digits c cs hcd h2 h3
  rw [mergeValue, append, hlex]
  by_cases hv : v.toList = []
  · have hv2 : v = "" := (toList_eq_nil v).mp hv
    subst hv2
    simp only [hv, MergeLex.lexValue, if_pos rfl]
    simp [readMap, readLeftValue, readArray, readRightValue, Cursor.newMapBuilder,
      Cursor.newArrayBuilder, Cursor.set, lookup, setKey, hatoi, arraySet_nil,
      tryParse, Strconv.parseBool, Strconv.parseInt64, Strconv.floatAccepts,
      Strconv.specialAccepts, Strconv.readFloatAccepts, Strconv.decTail, Strconv.mantLoop,
      Strconv.equalFold]
  · have hmk : String.mk v.toList = v := rfl
    simp only [MergeLex.lexValue, if_neg hv, hmk]
    simp [readMap, readLeftValue, readArray, readRightValue, Cursor.newMapBuilder,
      Cursor.newArrayBuilder, Cursor.set, lookup, setKey, hatoi, arraySet_nil]

/-- C4: merging "k[i]=v" (i a non-negative decimal index within the signed
64-bit range) into an empty destination yields at "k" an array of i+1
elements, Null at positions 0..i-1 and the coerced value at position i;
and the builder's array write grows any shorter array by padding every
intermediate slot with Null. -/
theorem C4_array_index_pad :
    (∀ (ds : List Char) (v : String), ds ≠ [] → Strconv.allDigits ds = true →
        Strconv.digitsToNat ds ≤ 2 ^ 63 - 1 →
        mergeValue [] ("k[" ++ String.mk ds ++ "]=" ++ v) =
          ([("k", Value.VArr (List.replicate (Strconv.digitsToNat ds) Value.VNull ++
              [tryParse v]))], none)) ∧
    (∀ (a : List Value) (n : Nat) (w : Value), a.length ≤ n →
        arraySet a (n : Int) w = a ++ List.replicate (n - a.length) Value.VNull ++ [w]) := by
  constructor
  · intro ds v hne hall hle
    cases ds with
    | nil => exact absurd rfl hne
    | cons c cs => exact merge_k_array c cs v hall hle
  · exact arraySet_grow

/-- C1 counterexample: the claim says value coercion recognises booleans by
exactly the two case-sensitive spellings `true` and `false`, so that `"1"`
would coerce to the integer 1 and `"True"` to the string `"True"`; the
code's `strconv.ParseBool` step accepts both as the boolean `true`. -/
theorem C1_tryParse_counterexample :
    tryParse "1" = Value.VBool true ∧ tryParse "True" = Value.VBool true := by
  constructor <;> rfl

/-- C1 (amended): `tryParse` attempts, in order, a boolean via Go's
`strconv.ParseBool` (which accepts the twelve spellings 1 t T true TRUE
True 0 f F false FALSE False), then a 64-bit signed integer, then a 64-bit
float, then null for exactly `null`, `NULL`, `Null`, and otherwise returns
the text unchanged as a string; coercing `"1000"` yields integer 1000 and
`"10.01"` yields float 10.01. -/
theorem C1_tryParse_coercion_order :
    (∀ s b, Strconv.parseBool s = some b → tryParse s = Value.VBool b) ∧
    (∀ s i, Strconv.parseBool s = none → Strconv.parseInt64 s = Except.ok i →
      tryParse s = Value.VInt i) ∧
    (∀ s e, Strconv.parseBool s = none → Strconv.parseInt64 s = Except.error e →
      Strconv.floatAccepts s = true → tryParse s = Value.VFloat s) ∧
    (∀ s e, Strconv.parseBool s = none → Strconv.parseInt64 s = Except.error e →
      Strconv.floatAccepts s = false → (s = "null" ∨ s = "NULL" ∨ s = "Null") →
      tryParse s = Value.VNull) ∧
    (∀ s e, Strconv.parseBool s = none → Strconv.parseInt64 s = Except.error e →
      Strconv.floatAccepts s = false → ¬(s = "null" ∨ s = "NULL" ∨ s = "Null") →
      tryParse s = Value.VStr s) ∧
    tryParse "1000" = Value.VInt 1000 ∧
    tryParse "-1000" = Value.VInt (-1000) ∧
    tryParse "10.01" = Value.VFloat "10.01" ∧
    tryParse "4e-04" = Value.VFloat "4e-04" ∧
    tryParse "true" = Value.VBool true ∧
    tryParse "false" = Value.VBool false ∧
    tryParse "null" = Value.VNull ∧
    tryParse "NULL" = Value.VNull ∧
    tryParse "Null" = Value.VNull ∧
    tryParse "nUll" = Value.VStr "nUll" ∧
    tryParse "hello" = Value.VStr "hello" ∧
    tryParse "9223372036854775807" = Value.VInt 9223372036854775807 ∧
    tryParse "9223372036854775808" = Value.VFloat "9223372036854775808" := by
  refine ⟨?_, ?_, ?_, ?_, ?_, rfl, rfl, rfl, rfl, rfl, rfl, rfl, rfl, rfl, rfl, rfl, rfl, rfl⟩
  · intro s b h
    unfold tryParse
    rw [h]
  · intro s i h1 h2
    unfold tryParse
    rw [h1, h2]
  · intro s e h1 h2 h3
    unfold tryParse
    rw [h1, h2]
    simp [h3]
  · intro s e h1 h2 h3 h4
    unfold tryParse
    rw [h1, h2]
    simp [h3, h4]
  · intro s e h1 h2 h3 h4
    unfold tryParse
    rw [h1, h2]
    simp [h3, h4]

/-- C5: evaluating the `Unmarshal` pipeline at the claim's example input.
The parser's `readValuesArray` appends Go nil (here `Value.VNull`) for an
element left empty between two commas, so `key={val1,,val2}` produces
`{key: [val1, null, val2]}`, while the repository's own parser test
(src/parser_test.go, case "an array with missing elements") and the README
expect `{key: [val1, "", val2]}`. -/
theorem C5_unmarshal_empty_element :
    unmarshal "key={val1,,val2}" [] =
      ([("key", Value.VArr [Value.VStr "val1", Value.VNull, Value.VStr "val2"])], none) := by
  simp [unmarshal, parse, readMap, readLeftValue, readArray, readRightValueU, readValuesArray,
    FullLex.lexAll, FullLex.lexMapKey, FullLex.lexLeftValue, FullLex.lexArrayIndex,
    FullLex.lexRightValue, FullLex.lexString, FullLex.lexArrayValue, FullLex.lexNextArrayValue,
    FullLex.lexNextMapKey, FullLex.scan, FullLex.isCharInSet, FullLex.leftValueChars,
    FullLex.rightValueChars, FullLex.stringChars, Cursor.newMapBuilder, Cursor.newArrayBuilder,
    Cursor.set, setKey, lookup, arraySet, trimQuotes, tryParse, Strconv.parseBool,
    Strconv.parseInt64, Strconv.allDigits, Strconv.digitsToNat, Strconv.floatAccepts,
    Strconv.specialAccepts, Strconv.readFloatAccepts, Strconv.decTail, Strconv.mantLoop,
    Strconv.equalFold, Strconv.lower, Strconv.isHexLetter, Strconv.atoi, tokenToError,
    Token.text]

/-- C6 counterexample: the claim says `]` is a reserved stop character of
map-key mode, so the key token of `a]b=c` would end before the bracket; the
part_004 lexer's `leftValueChars` does not contain `]`, and the emitted
map-key token is `a]b`, bracket included. -/
theorem C6_mapkey_counterexample :
    FullLex.lexAll "a]b=c" =
      [Token.tMapKey "a]b", Token.tAssignment, Token.tValue "c", Token.tEnd] ∧
    ']' ∈ "a]b".toList := by
  constructor
  · simp [FullLex.lexAll, FullLex.lexMapKey, FullLex.lexLeftValue, FullLex.lexArrayIndex,
      FullLex.lexRightValue, FullLex.lexString, FullLex.lexArrayValue, FullLex.lexNextArrayValue,
      FullLex.lexNextMapKey, FullLex.scan, FullLex.isCharInSet, FullLex.leftValueChars,
      FullLex.rightValueChars, FullLex.stringChars]
  · decide

/-- C6 (amended): in map-key mode exactly the three characters `=`, `.` and
`[` are reserved (`]` is an ordinary key character): a map-key scan stops
only at the end of input or before one of the three, and on backslash-free
input the key token is precisely the longest prefix of non-reserved
characters — every other character, whitespace and `]` included, is taken
verbatim. -/
theorem C6_mapkey_reserved_amended :
    ∀ s : List Char,
      ((FullLex.scan FullLex.leftValueChars s).2 = [] ∨
        ∃ c cs, (FullLex.scan FullLex.leftValueChars s).2 = c :: cs ∧
          c ∈ FullLex.leftValueChars) ∧
      ('\\' ∉ s →
        FullLex.scan FullLex.leftValueChars s =
          (s.takeWhile (fun c => FullLex.isCharInSet c FullLex.leftValueChars),
            s.dropWhile (fun c => FullLex.isCharInSet c FullLex.leftValueChars))) ∧
      FullLex.isCharInSet ']' FullLex.leftValueChars = true := by
  intro s
  refine ⟨?_, ?_, by decide⟩
  · induction s using FullLex.scan.induct FullLex.leftValueChars with
    | case1 => left; simp [FullLex.scan]
    | case2 => left; simp [FullLex.scan]
    | case3 d ds hd ih =>
      rw [FullLex.scan.eq_def]
      dsimp only
      rw [if_pos rfl, if_pos hd]
      exact ih
    | case4 d ds hd ih =>
      rw [FullLex.scan.eq_def]
      dsimp only
      rw [if_pos rfl, if_neg hd]
      exact ih
    | case5 c cs hb hc ih =>
      rw [FullLex.scan.eq_def]
      dsimp only
      rw [if_neg hb, if_pos hc]
      exact ih
    | case6 c cs hb hc =>
      right
      refine ⟨c, cs, ?_, ?_⟩
      · rw [FullLex.scan.eq_def]
        dsimp only
        rw [if_neg hb, if_neg hc]
      · simpa [FullLex.isCharInSet] using hc
  · intro hbs
    induction s with
    | nil => simp [FullLex.scan]
    | cons c cs ih =>
      have hb : c ≠ '\\' := by
        intro hc
        exact hbs (by simp [hc])
      rw [FullLex.scan.eq_def]
      dsimp only
      rw [if_neg hb]
      by_cases hc : FullLex.isCharInSet c FullLex.leftValueChars = true
      · rw [if_pos hc]
        rw [ih (fun hmem => hbs (by simp [hmem]))]
        simp [List.takeWhile_cons, List.dropWhile_cons, hc]
      · rw [if_neg hc]
        simp only [Bool.not_eq_true] at hc
        simp [List.takeWhile_cons, List.dropWhile_cons, hc]

/-- C7 counterexample: the claim says that in value scanning a backslash
followed by a character that is neither reserved nor a backslash makes the
tokenizer emit an `unknown escape sequence` error; the MergeValue-revision
lexer performs no escape processing in values at all, and k=a backslash -b
lexes successfully into a value token that keeps the backslash. -/
theorem C7_value_escape_counterexample :
    MergeLex.lexAll "k=a\\-b" =
      [Token.tMapKey "k", Token.tAssignment, Token.tValue "a\\-b", Token.tEnd] := by
  simp [MergeLex.lexAll, MergeLex.lexMapKey, MergeLex.lexLeftValue, MergeLex.lexArrayIndex,
    MergeLex.lexValue, MergeLex.scan, MergeLex.isStopChar, MergeLex.stopLeftValueChars]

/-- C2: descending into an occupied slot reuses the existing container if
and only if its structural kind matches the requested child (an existing
map for a map-key segment, an existing array for an array-index segment);
on a kind mismatch the child cursor starts from a freshly created empty
container, and after the commit the slot holds only what was written
through that fresh container — the old value is replaced, never merged
with.  All four descend operations of src/builder.go are covered. -/
theorem C2_builder_reuse_or_replace :
    ∀ (p : Cursor) (m : GoMap) (key k2 : String) (i j : Int) (a : List Value) (v : Value),
      (∀ mm, lookup m key = some (Value.VMap mm) →
        (Cursor.mapB p m key).newMapBuilder k2 = Cursor.mapB (Cursor.mapB p m key) mm k2) ∧
      ((∀ mm, lookup m key ≠ some (Value.VMap mm)) →
        (Cursor.mapB p m key).newMapBuilder k2 = Cursor.mapB (Cursor.mapB p m key) [] k2) ∧
      (∀ aa, lookup m key = some (Value.VArr aa) →
        (Cursor.mapB p m key).newArrayBuilder i = Cursor.arrB (Cursor.mapB p m key) aa i) ∧
      ((∀ aa, lookup m key ≠ some (Value.VArr aa)) →
        (Cursor.mapB p m key).newArrayBuilder i = Cursor.arrB (Cursor.mapB p m key) [] i) ∧
      (∀ mm, (a.length : Int) ≥ j + 1 → a[j.toNat]? = some (Value.VMap mm) →
        (Cursor.arrB p a j).newMapBuilder k2 = Cursor.mapB (Cursor.arrB p a j) mm k2) ∧
      (((a.length : Int) < j + 1 ∨ ∀ mm, a[j.toNat]? ≠ some (Value.VMap mm)) →
        (Cursor.arrB p a j).newMapBuilder k2 = Cursor.mapB (Cursor.arrB p a j) [] k2) ∧
      (∀ aa, (a.length : Int) ≥ j + 1 → a[j.toNat]? = some (Value.VArr aa) →
        (Cursor.arrB p a j).newArrayBuilder i = Cursor.arrB (Cursor.arrB p a j) aa i) ∧
      (((a.length : Int) < j + 1 ∨ ∀ aa, a[j.toNat]? ≠ some (Value.VArr aa)) →
        (Cursor.arrB p a j).newArrayBuilder i = Cursor.arrB (Cursor.arrB p a j) [] i) ∧
      ((∀ mm, lookup m key ≠ some (Value.VMap mm)) →
        ((Cursor.mapB p m key).newMapBuilder k2).set v =
          (Cursor.mapB p m key).set (Value.VMap [(k2, v)])) ∧
      ((∀ aa, lookup m key ≠ some (Value.VArr aa)) →
        ((Cursor.mapB p m key).newArrayBuilder i).set v =
          (Cursor.mapB p m key).set (Value.VArr (arraySet [] i v))) := by
  intro p m key k2 i j a v
  have hmapfresh : (∀ mm, lookup m key ≠ some (Value.VMap mm)) →
      (Cursor.mapB p m key).newMapBuilder k2 = Cursor.mapB (Cursor.mapB p m key) [] k2 := by
    intro h
    cases hl : lookup m key with
    | none => simp [Cursor.newMapBuilder, hl]
    | some v0 =>
      cases v0 with
      | VMap mm => exact absurd hl (h mm)
      | VNull => simp [Cursor.newMapBuilder, hl]
      | VBool b => simp [Cursor.newMapBuilder, hl]
      | VInt n => simp [Cursor.newMapBuilder, hl]
      | VFloat f => simp [Cursor.newMapBuilder, hl]
      | VStr s => simp [Cursor.newMapBuilder, hl]
      | VArr aa => simp [Cursor.newMapBuilder, hl]
  have harrfresh : (∀ aa, lookup m key ≠ some (Value.VArr aa)) →
      (Cursor.mapB p m key).newArrayBuilder i = Cursor.arrB (Cursor.mapB p m key) [] i := by
    intro h
    cases hl : lookup m key with
    | none => simp [Cursor.newArrayBuilder, hl]
    | some v0 =>
      cases v0 with
      | VArr aa => exact absurd hl (h aa)
      | VNull => simp [Cursor.newArrayBuilder, hl]
      | VBool b => simp [Cursor.newArrayBuilder, hl]
      | VInt n => simp [Cursor.newArrayBuilder, hl]
      | VFloat f => simp [Cursor.newArrayBuilder, hl]
      | VStr s => simp [Cursor.newArrayBuilder, hl]
      | VMap mm => simp [Cursor.newArrayBuilder, hl]
  refine ⟨?_, hmapfresh, ?_, harrfresh, ?_, ?_, ?_, ?_, ?_, ?_⟩
  · intro mm h
    simp [Cursor.newMapBuilder, h]
  · intro aa h
    simp [Cursor.newArrayBuilder, h]
  · intro mm hj h
    simp [Cursor.newMapBuilder, hj, h]
  · intro h
    cases h with
    | inl hj => simp [Cursor.newMapBuilder, not_le.mpr hj]
    | inr hmm =>
      by_cases hj : (a.length : Int) ≥ j + 1
      · cases hl : a[j.toNat]? with
        | none => simp [Cursor.newMapBuilder, hj, hl]
        | some v0 =>
          cases v0 with
          | VMap mm => exact absurd hl (hmm mm)
          | VNull => simp [Cursor.newMapBuilder, hj, hl]
          | VBool b => simp [Cursor.newMapBuilder, hj, hl]
          | VInt n => simp [Cursor.newMapBuilder, hj, hl]
          | VFloat f => simp [Cursor.newMapBuilder, hj, hl]
          | VStr s => simp [Cursor.newMapBuilder, hj, hl]
          | VArr aa => simp [Cursor.newMapBuilder, hj, hl]
      · simp [Cursor.newMapBuilder, hj]
  · intro aa hj h
    simp [Cursor.newArrayBuilder, hj, h]
  · intro h
    cases h with
    | inl hj => simp [Cursor.newArrayBuilder, not_le.mpr hj]
    | inr haa =>
      by_cases hj : (a.length : Int) ≥ j + 1
      · cases hl : a[j.toNat]? with
        | none => simp [Cursor.newArrayBuilder, hj, hl]
        | some v0 =>
          cases v0 with
          | VArr aa => exact absurd hl (haa aa)
          | VNull => simp [Cursor.newArrayBuilder, hj, hl]
          | VBool b => simp [Cursor.newArrayBuilder, hj, hl]
          | VInt n => simp [Cursor.newArrayBuilder, hj, hl]
          | VFloat f => simp [Cursor.newArrayBuilder, hj, hl]
          | VStr s => simp [Cursor.newArrayBuilder, hj, hl]
          | VMap mm => simp [Cursor.newArrayBuilder, hj, hl]
      · simp [Cursor.newArrayBuilder, hj]
  · intro h
    rw [hmapfresh h]
    simp [Cursor.set, setKey]
  · intro h
    rw [harrfresh h]
    simp [Cursor.set]

/-- C2 witness: a string-valued slot is not reused for a map descent — the
child starts from a fresh empty map and the commit replaces the old value
with a map holding only the new write; a map-valued slot is reused. -/
theorem C2_builder_witness :
    (Cursor.mapB (Cursor.root []) [("k", Value.VStr "x")] "k").newMapBuilder "k2" =
      Cursor.mapB (Cursor.mapB (Cursor.root []) [("k", Value.VStr "x")] "k") [] "k2" ∧
    ((Cursor.mapB (Cursor.root []) [("k", Value.VStr "x")] "k").newMapBuilder "k2").set
        (Value.VStr "v") =
      (Cursor.mapB (Cursor.root []) [("k", Value.VStr "x")] "k").set
        (Value.VMap [("k2", Value.VStr "v")]) ∧
    (Cursor.mapB (Cursor.root []) [("k", Value.VMap [("z", Value.VNull)])] "k").newMapBuilder
        "k2" =
      Cursor.mapB (Cursor.mapB (Cursor.root []) [("k", Value.VMap [("z", Value.VNull)])] "k")
        [("z", Value.VNull)] "k2" := by
  refine ⟨?_, ?_, ?_⟩
  · exact (C2_builder_reuse_or_replace (Cursor.root []) [("k", Value.VStr "x")] "k" "k2"
      0 0 [] Value.VNull).2.1 (by intro mm hmm; simp [lookup] at hmm)
  · exact (C2_builder_reuse_or_replace (Cursor.root []) [("k", Value.VStr "x")] "k" "k2"
      0 0 [] (Value.VStr "v")).2.2.2.2.2.2.2.2.1 (by intro mm hmm; simp [lookup] at hmm)
  · exact (C2_builder_reuse_or_replace (Cursor.root []) [("k", Value.VMap [("z", Value.VNull)])]
      "k" "k2" 0 0 [] Value.VNull).1 [("z", Value.VNull)] (by simp [lookup])

/-- C7 (amended): in map-key scanning a backslash followed by a stop
character or a backslash contributes exactly that single character to the
token, and a backslash followed by any other character aborts the scan with
the `unknown escape sequence` error; value scanning applies no escape
processing — the value token is the literal remainder of the input. -/
theorem C7_escape_amended :
    (∀ stops d ds t r, (MergeLex.isStopChar d stops || decide (d = '\\')) = true →
      MergeLex.scan stops ds = Except.ok (t, r) →
      MergeLex.scan stops ('\\' :: d :: ds) = Except.ok (d :: t, r)) ∧
    (∀ stops d ds, MergeLex.isStopChar d stops = false → d ≠ '\\' →
      MergeLex.scan stops ('\\' :: d :: ds) =
        Except.error ("unknown escape sequence: " ++ strRuneStr (some d))) ∧
    (∀ s, s ≠ [] → MergeLex.lexValue s = [Token.tValue (String.mk s), Token.tEnd]) := by
  refine ⟨?_, ?_, ?_⟩
  · intro stops d ds t r hd hscan
    rw [MergeLex.scan.eq_def]
    dsimp only
    rw [if_pos rfl, if_pos hd, hscan]
  · intro stops d ds hd hb
    rw [MergeLex.scan.eq_def]
    dsimp only
    rw [if_pos rfl, if_neg (by simp [hd, hb])]
  · intro s hs
    simp [MergeLex.lexValue, hs]

/-- Success observer for parser results. -/
def resOk : Except String (GoMap × List Token) → Bool
  | Except.ok _ => true
  | Except.error _ => false

/-- The two readers of src/parser.go succeed on exactly the same token
streams, consuming the same tokens, and fail with the same errors. -/
theorem right_readers_cases (ts : List Token) :
    (∃ v w r, readRightString ts = Except.ok (v, r) ∧ readRightValue ts = Except.ok (w, r)) ∨
    (∃ e, readRightString ts = Except.error e ∧ readRightValue ts = Except.error e) := by
  match ts with
  | Token.tEnd :: r => left; exact ⟨_, _, r, rfl, rfl⟩
  | Token.tValue v :: r => left; exact ⟨_, _, r, rfl, rfl⟩
  | [] => left; exact ⟨_, _, [], rfl, rfl⟩
  | Token.tError e :: r => right; exact ⟨_, rfl, rfl⟩
  | Token.tMapKey k :: r => right; exact ⟨_, rfl, rfl⟩
  | Token.tMapKeySeparator :: r => right; exact ⟨_, rfl, rfl⟩
  | Token.tArrayIndexStart :: r => right; exact ⟨_, rfl, rfl⟩
  | Token.tArrayIndexFinish :: r => right; exact ⟨_, rfl, rfl⟩
  | Token.tArrayIndex d :: r => right; exact ⟨_, rfl, rfl⟩
  | Token.tAssignment :: r => right; exact ⟨_, rfl, rfl⟩
  | Token.tString sv :: r => right; exact ⟨_, rfl, rfl⟩
  | Token.tVerbatimString sv :: r => right; exact ⟨_, rfl, rfl⟩
  | Token.tNextKey :: r => right; exact ⟨_, rfl, rfl⟩
  | Token.tValueArrayStart :: r => right; exact ⟨_, rfl, rfl⟩
  | Token.tValueArrayFinish :: r => right; exact ⟨_, rfl, rfl⟩
  | Token.tNextValue :: r => right; exact ⟨_, rfl, rfl⟩

/-- The clause parser driven by the literal-string reader succeeds exactly
when the one driven by the coercing reader does (joint induction over the
three mutually recursive parsing functions). -/
theorem readMap_string_value_ok :
    ∀ n ts, ts.length ≤ n → ∀ b : Cursor,
      resOk (readMap readRightString b ts) = resOk (readMap readRightValue b ts) ∧
      resOk (readLeftValue readRightString b ts) = resOk (readLeftValue readRightValue b ts) ∧
      resOk (readArray readRightString b ts) = resOk (readArray readRightValue b ts) := by
  intro n
  induction n with
  | zero =>
    intro ts hts b
    have : ts = [] := List.length_eq_zero.mp (Nat.le_zero.mp hts)
    subst this
    simp [readMap, readLeftValue, readArray]
  | succ n ih =>
    intro ts hts b
    match ts with
    | [] => simp [readMap, readLeftValue, readArray]
    | t :: ts2 =>
      have hts2 : ts2.length ≤ n := by simp at hts; omega
      refine ⟨?_, ?_, ?_⟩
      · match t with
        | Token.tMapKey k =>
          simp only [readMap]
          exact (ih ts2 hts2 (b.newMapBuilder k)).2.1
        | Token.tEnd => simp [readMap]
        | Token.tError e => simp [readMap]
        | Token.tMapKeySeparator => simp [readMap]
        | Token.tArrayIndexStart => simp [readMap]
        | Token.tArrayIndexFinish => simp [readMap]
        | Token.tArrayIndex d => simp [readMap]
        | Token.tAssignment => simp [readMap]
        | Token.tValue v => simp [readMap]
        | Token.tString sv => simp [readMap]
        | Token.tVerbatimString sv => simp [readMap]
        | Token.tNextKey => simp [readMap]
        | Token.tValueArrayStart => simp [readMap]
        | Token.tValueArrayFinish => simp [readMap]
        | Token.tNextValue => simp [readMap]
      · match t with
        | Token.tMapKeySeparator =>
          simp only [readLeftValue]
          exact (ih ts2 hts2 b).1
        | Token.tArrayIndexStart =>
          simp only [readLeftValue]
          exact (ih ts2 hts2 b).2.2
        | Token.tAssignment =>
          rcases right_readers_cases ts2 with ⟨v, w, r, hS, hV⟩ | ⟨e, hS, hV⟩ <;>
            simp [readLeftValue, hS, hV, resOk]
        | Token.tEnd => simp [readLeftValue]
        | Token.tError e => simp [readLeftValue]
        | Token.tMapKey k => simp [readLeftValue]
        | Token.tArrayIndexFinish => simp [readLeftValue]
        | Token.tArrayIndex d => simp [readLeftValue]
        | Token.tValue v => simp [readLeftValue]
        | Token.tString sv => simp [readLeftValue]
        | Token.tVerbatimString sv => simp [readLeftValue]
        | Token.tNextKey => simp [readLeftValue]
        | Token.tValueArrayStart => simp [readLeftValue]
        | Token.tValueArrayFinish => simp [readLeftValue]
        | Token.tNextValue => simp [readLeftValue]
      · match t with
        | Token.tArrayIndex d =>
          rw [readArray.eq_def, readArray.eq_def]
          dsimp only
          cases hat : Strconv.atoi d with
          | error e => rfl
          | ok i =>
            dsimp only
            match ts2 with
            | Token.tArrayIndexFinish :: ts3 =>
              have hts3 : ts3.length ≤ n := by simp at hts2 ⊢; omega
              exact (ih ts3 hts3 (b.newArrayBuilder i)).2.1
            | [] => rfl
            | Token.tEnd :: ts3 => rfl
            | Token.tError e :: ts3 => rfl
            | Token.tMapKey k :: ts3 => rfl
            | Token.tMapKeySeparator :: ts3 => rfl
            | Token.tArrayIndexStart :: ts3 => rfl
            | Token.tArrayIndex d2 :: ts3 => rfl
            | Token.tAssignment :: ts3 => rfl
            | Token.tValue v :: ts3 => rfl
            | Token.tString sv :: ts3 => rfl
            | Token.tVerbatimString sv :: ts3 => rfl
            | Token.tNextKey :: ts3 => rfl
            | Token.tValueArrayStart :: ts3 => rfl
            | Token.tValueArrayFinish :: ts3 => rfl
            | Token.tNextValue :: ts3 => rfl
        | Token.tEnd => simp [readArray]
        | Token.tError e => simp [readArray]
        | Token.tMapKey k => simp [readArray]
        | Token.tMapKeySeparator => simp [readArray]
        | Token.tArrayIndexStart => simp [readArray]
        | Token.tArrayIndexFinish => simp [readArray]
        | Token.tAssignment => simp [readArray]
        | Token.tValue v => simp [readArray]
        | Token.tString sv => simp [readArray]
        | Token.tVerbatimString sv => simp [readArray]
        | Token.tNextKey => simp [readArray]
        | Token.tValueArrayStart => simp [readArray]
        | Token.tValueArrayFinish => simp [readArray]
        | Token.tNextValue => simp [readArray]

/-- C8: `MergeString` accepts exactly the same expressions as `MergeValue`
(the two differ only in the `rightValueReader` they install), and the
string reader stores every right-hand scalar as its literal token text,
applying no boolean/number/null coercion (a missing value is the empty
string). -/
theorem C8_mergeString_same_grammar_literal :
    (∀ m s, (mergeString m s).2 = none ↔ (mergeValue m s).2 = none) ∧
    (∀ v ts, readRightString (Token.tValue v :: ts) = Except.ok (Value.VStr v, ts)) ∧
    (∀ ts, readRightString (Token.tEnd :: ts) = Except.ok (Value.VStr "", ts)) := by
  refine ⟨?_, fun v ts => rfl, fun ts => rfl⟩
  intro m s
  have hok := (readMap_string_value_ok (MergeLex.lexAll s).length (MergeLex.lexAll s) le_rfl
    (Cursor.root m)).1
  unfold mergeString mergeValue append
  cases hS : readMap readRightString (Cursor.root m) (MergeLex.lexAll s) with
  | ok pr =>
    obtain ⟨mS, rS⟩ := pr
    cases hV : readMap readRightValue (Cursor.root m) (MergeLex.lexAll s) with
    | ok pr2 =>
      obtain ⟨mV, rV⟩ := pr2
      simp
    | error e =>
      rw [hS, hV] at hok
      simp [resOk] at hok
  | error e =>
    cases hV : readMap readRightValue (Cursor.root m) (MergeLex.lexAll s) with
    | ok pr2 =>
      rw [hS, hV] at hok
      simp [resOk] at hok
    | error e2 =>
      simp

/-- C9: the clause loop composes — after a successful clause followed by
the clause separator, processing continues from the updated destination
map.  Hence when a later clause is the first to fail, the final state is
the map accumulated by the earlier clauses (their commits are not rolled
back), no clause after the failing one is applied, and the call returns
that clause's error. -/
theorem C9_earlier_clauses_persist (m m1 : GoMap) (ts rest2 : List Token)
    (h : readMap readRightValueU (Cursor.root m) ts =
      Except.ok (m1, Token.tNextKey :: rest2)) :
    parse m ts = parse m1 rest2 ∧
    ∀ m2 e, parse m1 rest2 = (m2, some e) → parse m ts = (m2, some e) := by
  have heq : parse m ts = parse m1 rest2 := by rw [parse.eq_def, h]
  exact ⟨heq, fun m2 e h2 => heq.trans h2⟩

/-- C9 witness: `a=v1` followed by a malformed second clause — the loop
continues from the map holding the first clause's write. -/
theorem C9_witness :
    parse [] [Token.tMapKey "a", Token.tAssignment, Token.tValue "v1", Token.tNextKey,
        Token.tMapKey "b", Token.tArrayIndexStart, Token.tError "boom"] =
      parse [("a", Value.VStr "v1")] [Token.tMapKey "b", Token.tArrayIndexStart,
        Token.tError "boom"] :=
  (C9_earlier_clauses_persist [] [("a", Value.VStr "v1")]
    [Token.tMapKey "a", Token.tAssignment, Token.tValue "v1", Token.tNextKey,
      Token.tMapKey "b", Token.tArrayIndexStart, Token.tError "boom"]
    [Token.tMapKey "b", Token.tArrayIndexStart, Token.tError "boom"]
    (by simp [readMap, readLeftValue, readRightValueU, Cursor.newMapBuilder, Cursor.set,
      lookup, setKey, tryParse, Strconv.parseBool, Strconv.parseInt64, Strconv.allDigits,
      Strconv.floatAccepts, Strconv.specialAccepts, Strconv.readFloatAccepts, Strconv.decTail,
      Strconv.mantLoop, Strconv.equalFold, Strconv.lower, Strconv.isHexLetter])).1

/-- C10: a clause is atomic up to its terminal write — when a clause fails
at any point before its terminal set operation runs (bad path token,
array-index conversion error, malformed right-hand value), the destination
map is exactly what it was before the clause began, and the error is
surfaced.  Containers created while descending attach to the tree only
through the commit chain of the terminal `set`. -/
theorem C10_failed_clause_leaves_map (m : GoMap) (ts : List Token) (e : String)
    (h : readMap readRightValueU (Cursor.root m) ts = Except.error e) :
    parse m ts = (m, some e) := by
  rw [parse.eq_def, h]

/-- C10 witness: a clause that fails while reading its path leaves the
destination map untouched. -/
theorem C10_witness :
    parse [("x", Value.VNull)] [Token.tMapKey "foo", Token.tArrayIndexStart,
        Token.tError "boom"] = ([("x", Value.VNull)], some "boom") :=
  C10_failed_clause_leaves_map [("x", Value.VNull)]
    [Token.tMapKey "foo", Token.tArrayIndexStart, Token.tError "boom"] "boom"
    (by simp [readMap, readLeftValue, readArray, tokenToError, Cursor.newMapBuilder, lookup])

end Djson
